import Mathlib

/-!
Shallow embedding of the `graph` Go package (directional/bidirectional
multigraphs with Dijkstra shortest paths) and proofs about it.

Modelling conventions:
* Go `VertexID` (an `int`) is `Int`; edge weights (`int`) are `Int`.
* Go pointer identity of `vertexible` records coincides with `VertexID`
  equality for vertices registered in one graph, so vertex references are
  modelled by their `VertexID`.
* The Go map `map[Int]vertexible` is modelled as a list of vertex
  records keyed by `vid`; iteration order is the list order.
* The Go map `map[vertexible]Path` used inside `dijkstra`, whose absent
  keys read as the zero value `Path{}`, is modelled as a total function
  `Int → Path` that is initially constantly the empty path.
* Loops are modelled with an explicit fuel argument that is always called
  with enough fuel, keeping every definition structurally recursive and
  hence executable by `decide`/`rfl`.
-/

namespace GraphLib

/-- Go `VertexID`: an integer identity for each vertex. Written `Int`
directly below so that arithmetic automation sees the integer structure. -/
abbrev VertexID := Int

/-- Go `edge`: target vertex reference plus integer weight. -/
structure Edge where
  dst : Int
  weight : Int
  deriving DecidableEq, Repr

/-- Default edge value used for out-of-range indexing (never reached on the
in-bounds accesses performed by the Go code). -/
def dummyE : Edge := ⟨0, 0⟩

/-- Go `Path`: an ordered sequence of edges. -/
structure Path where
  edges : List Edge
  deriving DecidableEq, Repr

/-- Go `Type` enumerating graph kinds. -/
inductive GType where
  | Directional
  | Bidirectional
  deriving DecidableEq, Repr

/-- Go `vertex`: identity plus outgoing adjacency list. -/
structure GVertex where
  vid : Int
  outgoing : List Edge
  deriving DecidableEq, Repr

/-- Go `Graph`: type tag, vertex table and the id-generator state
(`vertexIDLast` of the closure built in `New`). -/
structure Graph where
  gtype : GType
  vertices : List GVertex
  idLast : Int
  deriving DecidableEq, Repr

/-- Go `New`: an empty graph whose id generator starts from zero. -/
def Graph.New (t : GType) : Graph := ⟨t, [], 0⟩

/-- Go `Graph.NewVertex`: allocate the next id, register an empty record and
return the new vertex (modelled by its id). -/
def Graph.NewVertex (g : Graph) : Graph × Int :=
  let newId := g.idLast + 1
  ({ g with vertices := g.vertices ++ [⟨newId, []⟩], idLast := newId }, newId)

/-- Go `vertex.removeEdge`: in-place loop that deletes every outgoing edge
whose target is `dest` by overwriting with the last element and shrinking.
`fuel` bounds the iteration count; `v.outgoing.length` always suffices. -/
def removeEdgeLoop (dest : Int) : Nat → List Edge → Nat → List Edge
  | 0, l, _ => l
  | fuel + 1, l, i =>
    if i < l.length then
      if (l.getD i dummyE).dst = dest then
        removeEdgeLoop dest fuel ((l.set i (l.getLast?.getD dummyE)).dropLast) i
      else
        removeEdgeLoop dest fuel l (i + 1)
    else l

/-- Go `vertex.removeEdge` applied to a vertex record. -/
def GVertex.removeEdge (v : GVertex) (dest : Int) : GVertex :=
  { v with outgoing := removeEdgeLoop dest v.outgoing.length v.outgoing 0 }

/-- Go `vertex.addEdge`: append an outgoing edge. -/
def GVertex.addEdge (v : GVertex) (dest : Int) (w : Int) : GVertex :=
  { v with outgoing := v.outgoing ++ [⟨dest, w⟩] }

/-- Go `Graph.RemoveVertex`: `false` if `id` is absent; otherwise delete the
record, strip edges targeting `id` from every remaining vertex, `true`. -/
def Graph.RemoveVertex (g : Graph) (id : Int) : Graph × Bool :=
  if g.vertices.any (fun v => v.vid = id) then
    let rest := g.vertices.filter (fun v => decide (v.vid ≠ id))
    ({ g with vertices := rest.map (fun v => v.removeEdge id) }, true)
  else (g, false)

/-- Append an edge `a → b` (weight `w`) to the record of vertex `a`. -/
def addEdgeTo (vs : List GVertex) (a b : Int) (w : Int) : List GVertex :=
  vs.map (fun v => if v.vid = a then v.addEdge b w else v)

/-- Go `Graph.AddEdge`: append the edge, and the mirrored edge when the
graph is bidirectional. -/
def Graph.AddEdge (g : Graph) (a b : Int) (w : Int) : Graph :=
  let vs := addEdgeTo g.vertices a b w
  { g with vertices :=
      if g.gtype = GType.Bidirectional then addEdgeTo vs b a w else vs }

/-- Remove all edges targeting `b` from the record of vertex `a`. -/
def removeEdgesFrom (vs : List GVertex) (a b : Int) : List GVertex :=
  vs.map (fun v => if v.vid = a then v.removeEdge b else v)

/-- Go `Graph.RemoveEdges`: remove all `a → b` edges, and all mirrored
`b → a` edges when the graph is bidirectional. -/
def Graph.RemoveEdges (g : Graph) (a b : Int) : Graph :=
  let vs := removeEdgesFrom g.vertices a b
  { g with vertices :=
      if g.gtype = GType.Bidirectional then removeEdgesFrom vs b a else vs }

/-- Go `Path.Distance`: `-1` for the empty path, else the weight sum. -/
def Path.Distance (p : Path) : Int :=
  if p.edges.isEmpty then -1 else (p.edges.map Edge.weight).sum

/-- Go `Path.Destination`: target of the last edge, if any. -/
def Path.Destination (p : Path) : Option Int :=
  match p.edges.getLast? with
  | some e => some e.dst
  | none => none

/-- Go `Path.addEdge`: reject a negative weight (returning an error, modelled
as `false`) and leave the path unchanged; otherwise append. -/
def Path.addEdge (p : Path) (e : Edge) : Path × Bool :=
  if e.weight < 0 then (p, false) else (⟨p.edges ++ [e]⟩, true)

/-- Go `distanceHeap.Less` on weights: a negative (sentinel) weight compares
as greater than any non-negative weight. -/
def lessW (a b : Int) : Bool :=
  if a < 0 then false else if b < 0 then true else decide (a < b)

/-- Heap entry weight at index `i`. -/
def hw (l : List Edge) (i : Nat) : Int := (l.getD i dummyE).weight

/-- Go `distanceHeap.Less` between two indices. -/
def hLess (l : List Edge) (i j : Nat) : Bool := lessW (hw l i) (hw l j)

/-- Go `distanceHeap.Swap`. -/
def hswap (l : List Edge) (i j : Nat) : List Edge :=
  (l.set i (l.getD j dummyE)).set j (l.getD i dummyE)

/-- Go `container/heap.down` restricted to the first `n` entries: sift the
entry at `i` down, returning the final array and final index. `fuel ≥ n`
always suffices. -/
def downLoop : Nat → List Edge → Nat → Nat → List Edge × Nat
  | 0, l, i, _ => (l, i)
  | fuel + 1, l, i, n =>
    let j1 := 2 * i + 1
    if j1 < n then
      let j := if j1 + 1 < n ∧ hLess l (j1 + 1) j1 then j1 + 1 else j1
      if hLess l j i then downLoop fuel (hswap l i j) j n
      else (l, i)
    else (l, i)

/-- The child index Go `down` selects for the entry at `i`: the right child
when it exists and compares strictly smaller, else the left child. -/
def dchild (l : List Edge) (i n : Nat) : Nat :=
  if 2 * i + 1 + 1 < n ∧ hLess l (2 * i + 1 + 1) (2 * i + 1) then 2 * i + 1 + 1
  else 2 * i + 1

/-- Go `container/heap.up`: sift the entry at `j` up. `fuel ≥ j` suffices. -/
def upLoop : Nat → List Edge → Nat → List Edge
  | 0, l, _ => l
  | fuel + 1, l, j =>
    if j ≠ 0 then
      let i := (j - 1) / 2
      if hLess l j i then upLoop fuel (hswap l i j) i
      else l
    else l

/-- Go `container/heap.Init` inner loop: sift down indices
`m - 1, …, 0` over the first `n` entries. -/
def initLoop (n : Nat) : Nat → List Edge → List Edge
  | 0, l => l
  | m + 1, l => initLoop n m (downLoop n l m n).1

/-- Go `heap.Init` on a `distanceHeap`. -/
def heapInit (l : List Edge) : List Edge :=
  initLoop l.length (l.length / 2) l

/-- Go `heap.Pop` on a `distanceHeap`: swap the root with the last entry,
sift the new root down over the shortened range, then detach the last
entry (the old root) as the popped value. -/
def heapPop (l : List Edge) : Edge × List Edge :=
  let n := l.length - 1
  let l1 := (downLoop l.length (hswap l 0 n) 0 n).1
  (l1.getLast?.getD dummyE, l1.dropLast)

/-- Go `heap.Fix` at index `i`. -/
def heapFix (l : List Edge) (i : Nat) : List Edge :=
  let d := downLoop l.length l i l.length
  if i < d.2 then d.1 else upLoop l.length d.1 i

/-- Go `distanceHeap.update`: overwrite the weight of the first entry for
vertex `v` (if any) and restore heap order. -/
def heapUpdate (l : List Edge) (v : Int) (w : Int) : List Edge :=
  match l.findIdx? (fun e => e.dst = v) with
  | some i => heapFix (l.set i ⟨(l.getD i dummyE).dst, w⟩) i
  | none => l

/-- Edges out of the vertex `v` as recorded in the graph. -/
def outEdges (g : Graph) (v : Int) : List Edge :=
  match g.vertices.find? (fun x => x.vid = v) with
  | some x => x.outgoing
  | none => []

/-- One relaxation step of Go `Graph.dijkstra`'s inner loop, for the popped
entry `⟨cv, cw⟩` and the outgoing edge `e`. The error returned by
`Path.addEdge` is discarded, exactly as in the Go code.

Caution: this models `Path` values *by value* — `fixedPath :=
shortestPaths[closestEdge.to]; fixedPath.addEdge(e)` is rendered as a pure
list append, which is the intended algorithm but not the actual Go
behaviour: Go's `append` reuses the shared slice backing array when spare
capacity exists, retroactively rewriting previously stored paths. The
value-level model is adequate for properties that do not inspect stored
edge lists of other vertices (source absence, key reachability, heap
behaviour); `relaxOneS` below models the real slice semantics. -/
def relaxOne (src cv : Int) (cw : Int)
    (st : List Edge × (Int → Path)) (e : Edge) :
    List Edge × (Int → Path) :=
  if e.dst = src then st
  else
    let newW := cw + e.weight
    let oldW := (st.2 e.dst).Distance
    if oldW < 0 ∨ newW < oldW then
      let fixedPath := ((st.2 cv).addEdge e).1
      (heapUpdate st.1 e.dst newW,
        fun x => if x = e.dst then fixedPath else st.2 x)
    else st

/-- Go `Graph.dijkstra` main loop. `handler` consumes resolved vertices and
may stop the traversal; its state `s` models the Go closure's captured
variables. `fuel` is `entireSize`; the inner `paths` function models the
`shortestPaths` map. -/
def dijkstraLoop {σ : Type} (g : Graph) (src : Int)
    (handler : σ → Int → Path → σ × Bool) :
    Nat → List Edge → (Int → Path) → σ → σ
  | 0, _, _, s => s
  | fuel + 1, h, paths, s =>
    let pop := heapPop h
    if pop.1.weight < 0 then s
    else
      let hs := if pop.1.dst ≠ src then handler s pop.1.dst (paths pop.1.dst)
                else (s, true)
      if hs.2 = false then hs.1
      else
        let st := (outEdges g pop.1.dst).foldl
          (relaxOne src pop.1.dst pop.1.weight) (pop.2, paths)
        dijkstraLoop g src handler fuel st.1 st.2 hs.1

/-- Go `Graph.dijkstra`: seed every vertex with the sentinel weight `-1`
(`0` for the source), heapify, and run the main loop once per vertex. -/
def Graph.dijkstra {σ : Type} (g : Graph) (src : Int) (s0 : σ)
    (handler : σ → Int → Path → σ × Bool) : σ :=
  let seed := g.vertices.map
    (fun v => Edge.mk v.vid (if v.vid = src then 0 else -1))
  dijkstraLoop g src handler seed.length (heapInit seed) (fun _ => ⟨[]⟩) s0

/-- Go `Graph.ShortestPaths`: collect every resolved vertex with its path,
in resolution order, as an association list (the Go result map). -/
def Graph.ShortestPaths (g : Graph) (src : Int) :
    List (Int × Path) :=
  g.dijkstra src [] (fun s v p => (s ++ [(v, p)], true))

/-- Go `Graph.ShortestPath`: stop as soon as `dest` resolves, returning its
path; the zero value `Path{}` when `dest` never resolves. -/
def Graph.ShortestPath (g : Graph) (src dest : Int) : Path :=
  g.dijkstra src ⟨[]⟩ (fun s v p => if v = dest then (p, false) else (s, true))

/-! ### Slice-accurate model of `Path` in `dijkstra`

Go's `Path.edges` is a slice. `dijkstra` runs `fixedPath :=
shortestPaths[closestEdge.to]; fixedPath.addEdge(e); shortestPaths[e.to] =
fixedPath`, and `addEdge` does `p.edges = append(p.edges, target)`: when
the slice has spare capacity, `append` writes the new element into the
backing array shared with every previously stored `Path` built from the
same prefix. The following definitions model slice headers (array id +
length) over an explicit store of backing arrays, with Go's gc doubling
growth (capacities 1, 2, 4, ...), so that this sharing is reproduced
exactly. The zero `Path` is the nil slice `⟨0, 0⟩` over the reserved empty
array 0. -/

/-- A Go slice header: backing-array id and length (offsets are always 0 in
this program, since paths are only ever built by `append`). -/
structure SliceH where
  aid : Nat
  len : Nat
  deriving DecidableEq, Repr

/-- Capacity growth of Go `append` for a one-element append on the small
slices this program builds: nil grows to capacity 1, then doubles. -/
def growCap (c : Nat) : Nat := if c = 0 then 1 else 2 * c

/-- Go `append(p.edges, e)` over the store `arrs` of backing arrays: write
in place when spare capacity exists, else allocate a fresh array (padding
the unused capacity with the zero edge). -/
def sappend (arrs : List (List Edge)) (h : SliceH) (e : Edge) :
    List (List Edge) × SliceH :=
  let arr := arrs.getD h.aid []
  if h.len < arr.length then
    (arrs.set h.aid (arr.set h.len e), ⟨h.aid, h.len + 1⟩)
  else
    let ncap := growCap arr.length
    let narr := (arr.take h.len ++ [e]) ++
      List.replicate (ncap - (h.len + 1)) dummyE
    (arrs ++ [narr], ⟨arrs.length, h.len + 1⟩)

/-- The edge list a slice header denotes in the store. -/
def readSlice (arrs : List (List Edge)) (h : SliceH) : List Edge :=
  (arrs.getD h.aid []).take h.len

/-- Go `Path.Distance` on a resolved edge list. -/
def listDistance (es : List Edge) : Int :=
  if es.isEmpty then -1 else (es.map Edge.weight).sum

/-- Go `Path.addEdge` under slice semantics: reject a negative weight
(leaving path and store unchanged), else `append`. -/
def saddEdge (arrs : List (List Edge)) (h : SliceH) (e : Edge) :
    List (List Edge) × SliceH :=
  if e.weight < 0 then (arrs, h) else sappend arrs h e

/-- One relaxation step of `Graph.dijkstra` under slice semantics: the
state is the heap, the `shortestPaths` map of slice headers, and the store
of backing arrays. Mirrors the Go statements one for one, including the
discarded `addEdge` error. -/
def relaxOneS (src cv : Int) (cw : Int)
    (st : List Edge × (Int → SliceH) × List (List Edge)) (e : Edge) :
    List Edge × (Int → SliceH) × List (List Edge) :=
  if e.dst = src then st
  else
    let newW := cw + e.weight
    let oldW := listDistance (readSlice st.2.2 (st.2.1 e.dst))
    if oldW < 0 ∨ newW < oldW then
      let fx := saddEdge st.2.2 (st.2.1 cv) e
      (heapUpdate st.1 e.dst newW,
        (fun x => if x = e.dst then fx.2 else st.2.1 x), fx.1)
    else st

/-- `Graph.dijkstra`'s main loop under slice semantics, specialised to the
`ShortestPaths` handler: resolved vertices are recorded with the slice
header passed to the handler, exactly as Go's `dists[v.accessor()] = p`
stores the `Path` value (a slice header) while its backing array remains
shared and mutable. -/
def dijkstraLoopS (g : Graph) (src : Int) :
    Nat → List Edge → (Int → SliceH) → List (List Edge) →
      List (Int × SliceH) → List (Int × SliceH) × List (List Edge)
  | 0, _, _, arrs, s => (s, arrs)
  | fuel + 1, h, paths, arrs, s =>
    let pop := heapPop h
    if pop.1.weight < 0 then (s, arrs)
    else
      let s2 := if pop.1.dst ≠ src then s ++ [(pop.1.dst, paths pop.1.dst)]
                else s
      let st := (outEdges g pop.1.dst).foldl
        (relaxOneS src pop.1.dst pop.1.weight) (pop.2, paths, arrs)
      dijkstraLoopS g src fuel st.1 st.2.1 st.2.2 s2

/-- Go `Graph.ShortestPaths` under slice semantics: each reported `Path` is
what its stored slice header denotes in the final store — later in-place
appends into a shared backing array are visible in earlier results, as in
the real program. -/
def Graph.ShortestPathsS (g : Graph) (src : Int) :
    List (Int × List Edge) :=
  let seed := g.vertices.map
    (fun v => Edge.mk v.vid (if v.vid = src then 0 else -1))
  let r := dijkstraLoopS g src seed.length (heapInit seed)
    (fun _ => ⟨0, 0⟩) [[]] []
  r.1.map (fun p => (p.1, readSlice r.2 p.2))

/-- The aliasing failing input: the chain `1→2→3→4` (weights 1,1,1) with
two edges out of vertex 4: `4→5` (weight 1) and `4→6` (weight 2). Vertex
4's stored path has length 3 and capacity 4, so relaxing `4→6` rewrites in
place the backing array shared with the path just stored for vertex 5. -/
def exampleGraphC1 : Graph :=
  let s1 := (Graph.New GType.Directional).NewVertex
  let s2 := s1.1.NewVertex
  let s3 := s2.1.NewVertex
  let s4 := s3.1.NewVertex
  let s5 := s4.1.NewVertex
  let s6 := s5.1.NewVertex
  (((((s6.1.AddEdge 1 2 1).AddEdge 2 3 1).AddEdge 3 4 1).AddEdge 4 5
      1).AddEdge 4 6 2)

/-! ### Specification-side definitions -/

/-- Keep predicate describing `removeEdgeLoop`'s effect. -/
def notTo (dest : Int) (e : Edge) : Bool := decide (e.dst ≠ dest)

/-- A path built by repeatedly applying `Path.addEdge` starting from the
empty path — the only way the package ever constructs paths. -/
def buildPath (es : List Edge) : Path :=
  es.foldl (fun p e => (p.addEdge e).1) ⟨[]⟩

/-- `walkOK g u v es`: the edge list `es` is a walk in `g` from `u` to `v`,
each step being an outgoing edge recorded at the vertex it leaves. -/
def walkOK (g : Graph) : Int → Int → List Edge → Bool
  | u, v, [] => decide (u = v)
  | u, v, e :: es =>
    (g.vertices.any (fun x => decide (x.vid = u) && decide (e ∈ x.outgoing)))
      && walkOK g e.dst v es

/-- Total weight of a walk. -/
def walkSum (es : List Edge) : Int := (es.map Edge.weight).sum

/-- Vertex `x` has a recorded outgoing edge to `y` of weight `w`. -/
def hasEdgeW (g : Graph) (x y : Int) (w : Int) : Prop :=
  ∃ v ∈ g.vertices, v.vid = x ∧ (⟨y, w⟩ : Edge) ∈ v.outgoing

/-- Vertex `x` has no recorded outgoing edge to `y`. -/
def noEdge (g : Graph) (x y : Int) : Prop :=
  ∀ v ∈ g.vertices, v.vid = x → ∀ e ∈ v.outgoing, e.dst ≠ y

/-- All recorded edge weights of the graph are non-negative. -/
abbrev nonnegWeights (g : Graph) : Prop :=
  ∀ v ∈ g.vertices, ∀ e ∈ v.outgoing, 0 ≤ e.weight

/-- Registered vertex identifiers are pairwise distinct (always true of the
Go `map[Int]vertexible`). -/
abbrev nodupIds (g : Graph) : Prop := (g.vertices.map GVertex.vid).Nodup

/-- One mutating call of the public interface, for stating properties of
whole call sequences. -/
inductive Op where
  | newV : Op
  | removeV : Int → Op
  | addE : Int → Int → Int → Op
  | removeE : Int → Int → Op

/-- Apply one operation, returning the vertex id when one is created. -/
def applyOp (g : Graph) : Op → Graph × Option Int
  | Op.newV => ((g.NewVertex).1, some (g.NewVertex).2)
  | Op.removeV id => ((g.RemoveVertex id).1, none)
  | Op.addE a b w => (g.AddEdge a b w, none)
  | Op.removeE a b => (g.RemoveEdges a b, none)

/-- Run a call sequence, collecting the ids returned by `NewVertex`. -/
def runOps (g : Graph) : List Op → Graph × List Int
  | [] => (g, [])
  | op :: ops =>
    let r := applyOp g op
    let rest := runOps r.1 ops
    (rest.1, r.2.toList ++ rest.2)

/-- The spec's concrete scenario graph: six vertices (ids 1..6, the claim's
vertices 0..5 in creation order) with the six directed edges of the claim,
built through the public interface. -/
def exampleGraphC2 : Graph :=
  let s1 := (Graph.New GType.Directional).NewVertex
  let s2 := s1.1.NewVertex
  let s3 := s2.1.NewVertex
  let s4 := s3.1.NewVertex
  let s5 := s4.1.NewVertex
  let s6 := s5.1.NewVertex
  ((((((s6.1.AddEdge 1 3 1).AddEdge 3 5 2).AddEdge 3 6 3).AddEdge 4 6
      4).AddEdge 5 6 5).AddEdge 6 2 6)

/-- Failing input for the negative-weight relaxation behaviour: three
vertices (ids 1, 2, 3) with edges `1→2` weight 2, `2→3` weight −1 and
`1→3` weight 10. -/
def exampleGraphC4 : Graph :=
  let s1 := (Graph.New GType.Directional).NewVertex
  let s2 := s1.1.NewVertex
  let s3 := s2.1.NewVertex
  (((s3.1.AddEdge 1 2 2).AddEdge 2 3 (-1)).AddEdge 1 3 10)

/-- A one-vertex graph (id 1), for source-vertex reporting behaviour. -/
def exampleGraphOne : Graph := ((Graph.New GType.Directional).NewVertex).1

/-- A multigraph with two parallel edges `1→3` (weights 1 and 5), matching
the spec's parallel-edge removal scenario. -/
def exampleGraphC7 : Graph :=
  let s1 := (Graph.New GType.Directional).NewVertex
  let s2 := s1.1.NewVertex
  let s3 := s2.1.NewVertex
  ((s3.1.AddEdge 1 3 1).AddEdge 1 3 5)

/-- Key under which Go's `distanceHeap.Less` is the strict order: negative
(sentinel) weights compare above every non-negative weight. -/
def keyv (w : Int) : WithTop Int := if w < 0 then ⊤ else (w : WithTop Int)

/-- Key of the heap entry at index `i`. -/
def hkey (l : List Edge) (i : Nat) : WithTop Int := keyv (hw l i)

/-- Min-heap edges (each child against its parent) whose parent index is at
least `start`, within the first `n` entries, are ordered. -/
def HeapFromN (l : List Edge) (n start : Nat) : Prop :=
  ∀ child, 0 < child → child < n → start ≤ (child - 1) / 2 →
    hkey l ((child - 1) / 2) ≤ hkey l child

/-- Full min-heap property on the first `n` entries. -/
def HeapN (l : List Edge) (n : Nat) : Prop := HeapFromN l n 0

/-- Invariant of Go `container/heap.down` while the sifted entry sits at
`hole`: all edges with parent at least `start` are ordered except those out
of `hole`, and the children of `hole` are bounded below by `hole`'s own
parent. -/
structure SiftDownState (l : List Edge) (n start hole : Nat) : Prop where
  lower : start ≤ hole
  bounded : hole < n
  heap : ∀ child, 0 < child → child < n → start ≤ (child - 1) / 2 →
    (child - 1) / 2 ≠ hole → hkey l ((child - 1) / 2) ≤ hkey l child
  upper : start < hole → ∀ child, 0 < child → child < n →
    (child - 1) / 2 = hole → hkey l ((hole - 1) / 2) ≤ hkey l child

/-- Invariant of Go `container/heap.up` while the sifted entry sits at
`hole`: all edges are ordered except the one into `hole`, and the children
of `hole` are bounded below by `hole`'s own parent. -/
structure SiftUpState (l : List Edge) (n hole : Nat) : Prop where
  bounded : hole < n
  heap : ∀ child, 0 < child → child < n → child ≠ hole →
    hkey l ((child - 1) / 2) ≤ hkey l child
  lower : ∀ child, 0 < child → child < n → (child - 1) / 2 = hole →
    hkey l ((hole - 1) / 2) ≤ hkey l child

/-- `v` is reachable from `src` by some walk over recorded edges. -/
def Reach (g : Graph) (src v : Int) : Prop :=
  ∃ es, walkOK g src v es = true

/-- Vertex `y` is bounded by `b`: either `y` was already resolved with a
key at most `b`, or the heap holds a non-sentinel entry for `y` of weight
at most `b`. -/
def TBound (pops : List (Int × Int)) (h : List Edge) (y : Int)
    (b : Int) : Prop :=
  (∃ q ∈ pops, q.1 = y ∧ q.2 ≤ b) ∨
  (∃ he ∈ h, he.dst = y ∧ 0 ≤ he.weight ∧ he.weight ≤ b)

/-- The master invariant of Go `Graph.dijkstra`'s main loop (for the
`ShortestPaths` handler, which never stops the traversal). `pops` is the
ghost history of popped `(vertex, key)` pairs, `h` the live heap, `paths`
the `shortestPaths` map and `res` the accumulated result. -/
structure DInv (g : Graph) (src : Int) (pops : List (Int × Int))
    (h : List Edge) (paths : Int → Path)
    (res : List (Int × Path)) : Prop where
  heap : HeapN h h.length
  cover : List.Perm (pops.map Prod.fst ++ h.map Edge.dst)
    (g.vertices.map GVertex.vid)
  pNonneg : ∀ q ∈ pops, 0 ≤ q.2
  pMono : ∀ q ∈ pops, ∀ he ∈ h, 0 ≤ he.weight → q.2 ≤ he.weight
  srcStart : pops = [] → (⟨src, 0⟩ : Edge) ∈ h
  start0 : pops = [] → ∀ he ∈ h, he.weight = 0 → he.dst = src
  srcIn : pops ≠ [] → src ∈ pops.map Prod.fst
  srcKey : ∀ q ∈ pops, q.1 = src → q.2 = 0
  pSync : ∀ q ∈ pops, q.1 ≠ src → (paths q.1).edges ≠ [] ∧
    walkOK g src q.1 (paths q.1).edges = true ∧
    walkSum (paths q.1).edges = q.2
  pOpt : ∀ q ∈ pops, ∀ es, walkOK g src q.1 es = true → q.2 ≤ walkSum es
  hSyncPos : ∀ he ∈ h, 0 ≤ he.weight → he.dst ≠ src →
    (paths he.dst).edges ≠ [] ∧
    walkOK g src he.dst (paths he.dst).edges = true ∧
    walkSum (paths he.dst).edges = he.weight
  hSyncNeg : ∀ he ∈ h, he.weight < 0 → paths he.dst = ⟨[]⟩
  srcPath : paths src = ⟨[]⟩
  relaxed : ∀ q ∈ pops, ∀ x ∈ g.vertices, x.vid = q.1 →
    ∀ e ∈ x.outgoing, e.dst ≠ src →
    e.dst ∈ g.vertices.map GVertex.vid →
    TBound pops h e.dst (q.2 + e.weight)
  resEq : res = (pops.filter (fun q => decide (q.1 ≠ src))).map
    (fun q => (q.1, paths q.1))

/-- Invariant of the relaxation fold over the popped vertex `v`'s outgoing
edges. `π0` is the paths map at the moment `v` was popped; `P` is the pop
history including `(v, k)`; `dsts` the (fixed) multiset of heap vertex
ids. -/
structure RelaxBase (g : Graph) (src : Int) (π0 : Int → Path)
    (P : List (Int × Int)) (dsts : List Int)
    (st : List Edge × (Int → Path)) : Prop where
  heap : HeapN st.1 st.1.length
  dst_perm : List.Perm (st.1.map Edge.dst) dsts
  src_path : st.2 src = ⟨[]⟩
  frozen : ∀ q ∈ P, st.2 q.1 = π0 q.1
  syncPos : ∀ he ∈ st.1, 0 ≤ he.weight → he.dst ≠ src →
    (st.2 he.dst).edges ≠ [] ∧
    walkOK g src he.dst (st.2 he.dst).edges = true ∧
    walkSum (st.2 he.dst).edges = he.weight
  syncNeg : ∀ he ∈ st.1, he.weight < 0 → st.2 he.dst = ⟨[]⟩
  wLB : ∀ he ∈ st.1, 0 ≤ he.weight → ∀ q ∈ P, q.2 ≤ he.weight

/-! ### Behaviour of `vertex.removeEdge`

The Go swap-with-last loop removes exactly the edges targeting `dest`,
permuting the remainder. -/

lemma removeEdgeLoop_multiset (dest : Int) :
    ∀ (fuel : Nat) (l : List Edge) (i : Nat), l.length - i ≤ fuel →
      (removeEdgeLoop dest fuel l i : Multiset Edge) =
        (l.take i : Multiset Edge) +
          ((l.drop i).filter (notTo dest) : Multiset Edge) := by
  intro fuel
  induction fuel with
  | zero =>
    intro l i hle
    have hli : l.length ≤ i := by omega
    simp [removeEdgeLoop, List.take_of_length_le hli, List.drop_eq_nil_of_le hli]
  | succ fuel ih =>
    intro l i hle
    by_cases hi : i < l.length
    · have hgd : l.getD i dummyE = l[i] := List.getD_eq_getElem l dummyE hi
      have hlast : l.getLast?.getD dummyE = l[l.length - 1] := by
        rw [List.getLast?_eq_getElem?,
          List.getElem?_eq_getElem (by omega : l.length - 1 < l.length)]
        rfl
      have hdropi : l.drop i = l[i] :: l.drop (i + 1) :=
        List.drop_eq_getElem_cons hi
      by_cases hd : (l.getD i dummyE).dst = dest
      · have hd2 : l[i].dst = dest := hgd ▸ hd
        have step : removeEdgeLoop dest (fuel + 1) l i =
            removeEdgeLoop dest fuel
              ((l.set i (l.getLast?.getD dummyE)).dropLast) i := by
          simp [removeEdgeLoop, hi, hd2]
        have hset : l.set i (l.getLast?.getD dummyE) =
            l.take i ++ l.getLast?.getD dummyE :: l.drop (i + 1) :=
          List.set_eq_take_cons_drop _ hi
        have hfi : ¬(notTo dest l[i] = true) := by
          simp [notTo, hd2]
        by_cases hend : i + 1 < l.length
        · -- the deleted slot is not the last one
          have hdropne : l.drop (i + 1) ≠ [] := by
            apply List.ne_nil_of_length_pos
            simp only [List.length_drop]
            omega
          have hdrop1 : (l.set i (l.getLast?.getD dummyE)).dropLast =
              l.take i ++
                l.getLast?.getD dummyE :: (l.drop (i + 1)).dropLast := by
            rw [hset, List.dropLast_append_of_ne_nil _ (by simp),
              List.dropLast_cons_of_ne_nil hdropne]
          have hlen : (l.take i ++
              l.getLast?.getD dummyE :: (l.drop (i + 1)).dropLast).length =
              l.length - 1 := by
            simp only [List.length_append, List.length_take, List.length_cons,
              List.length_dropLast, List.length_drop]
            omega
          have htake : i ≤ (l.take i).length := by
            simp only [List.length_take]
            omega
          rw [step, hdrop1, ih _ _ (by rw [hlen]; omega)]
          rw [List.take_left' (by simp only [List.length_take]; omega),
            List.drop_left' (by simp only [List.length_take]; omega)]
          congr 1
          have hglast : (l.drop (i + 1)).getLast hdropne =
              l.getLast?.getD dummyE := by
            rw [List.getLast_drop, List.getLast_eq_getElem, hlast]
          have hdecomp : (l.drop (i + 1)).dropLast ++
              [l.getLast?.getD dummyE] = l.drop (i + 1) := by
            conv_rhs => rw [← List.dropLast_append_getLast hdropne]
            rw [hglast]
          have hperm :
              List.Perm
                (l.getLast?.getD dummyE :: (l.drop (i + 1)).dropLast)
                (l.drop (i + 1)) := by
            conv_rhs => rw [← hdecomp]
            exact (List.perm_append_singleton _ _).symm
          have h1 : List.Perm
              (List.filter (notTo dest)
                (l.getLast?.getD dummyE :: (l.drop (i + 1)).dropLast))
              (List.filter (notTo dest) (l.drop (i + 1))) := hperm.filter _
          rw [Multiset.coe_eq_coe.2 h1, hdropi,
            List.filter_cons_of_neg hfi]
        · -- the deleted slot is the last one
          have hdropnil : l.drop (i + 1) = [] :=
            List.drop_eq_nil_of_le (by omega)
          have hdrop1 : (l.set i (l.getLast?.getD dummyE)).dropLast =
              l.take i := by
            rw [hset, hdropnil]
            exact List.dropLast_concat
          rw [step, hdrop1,
            ih _ _ (by simp only [List.length_take]; omega)]
          rw [List.take_of_length_le (by simp only [List.length_take]; omega),
            List.drop_eq_nil_of_le (by simp only [List.length_take]; omega)]
          rw [hdropi, hdropnil, List.filter_cons_of_neg hfi]
      · have hd2 : ¬(l[i].dst = dest) := fun h => hd (hgd ▸ h)
        have step : removeEdgeLoop dest (fuel + 1) l i =
            removeEdgeLoop dest fuel l (i + 1) := by
          simp [removeEdgeLoop, hi, hd2]
        have hfi : notTo dest l[i] = true := by
          simp [notTo, hd2]
        rw [step, ih _ _ (by omega)]
        rw [hdropi, List.filter_cons_of_pos hfi]
        rw [← List.take_concat_get l i hi, List.concat_eq_append]
        rw [← Multiset.coe_add]
        have hcons : ∀ (a : Edge) (xs : List Edge),
            ((a :: xs : List Edge) : Multiset Edge) = ↑[a] + ↑xs := by
          intro a xs
          rw [Multiset.coe_add]
          rfl
        rw [hcons]
        abel
    · have step : removeEdgeLoop dest (fuel + 1) l i = l := by
        simp [removeEdgeLoop, hi]
      rw [step, List.take_of_length_le (by omega),
        List.drop_eq_nil_of_le (by omega)]
      simp

/-- Go `vertex.removeEdge` keeps exactly the edges not targeting `dest`,
up to permutation. -/
lemma removeEdge_multiset (v : GVertex) (dest : Int) :
    ((v.removeEdge dest).outgoing : Multiset Edge) =
      (v.outgoing.filter (notTo dest) : Multiset Edge) := by
  have h := removeEdgeLoop_multiset dest v.outgoing.length v.outgoing 0
    (by omega)
  simpa [GVertex.removeEdge] using h

/-- Membership characterization of `vertex.removeEdge`. -/
lemma mem_removeEdge (v : GVertex) (dest : Int) (e : Edge) :
    e ∈ (v.removeEdge dest).outgoing ↔ e ∈ v.outgoing ∧ e.dst ≠ dest := by
  have h := removeEdge_multiset v dest
  have hm : e ∈ ((v.removeEdge dest).outgoing : Multiset Edge) ↔
      e ∈ (v.outgoing.filter (notTo dest) : Multiset Edge) := by rw [h]
  simpa [List.mem_filter, notTo] using hm

/-- Count characterization of `vertex.removeEdge`. -/
lemma count_removeEdge (v : GVertex) (dest : Int) (e : Edge) :
    (v.removeEdge dest).outgoing.count e =
      if e.dst = dest then 0 else v.outgoing.count e := by
  have h := removeEdge_multiset v dest
  have hc : ((v.removeEdge dest).outgoing : Multiset Edge).count e =
      ((v.outgoing.filter (notTo dest)) : Multiset Edge).count e := by rw [h]
  simp only [Multiset.coe_count] at hc
  rw [hc]
  by_cases hdst : e.dst = dest
  · simp [List.count_eq_zero, List.mem_filter, notTo, hdst]
  · rw [if_neg hdst]
    apply List.count_filter
    simp [notTo, hdst]

/-! ### Association-list lookup helper -/

lemma lookup_eq_none_of_not_mem (l : List (Int × Path)) (a : Int)
    (h : a ∉ l.map Prod.fst) : l.lookup a = none := by
  induction l with
  | nil => rfl
  | cons x l ih =>
    simp only [List.map_cons, List.mem_cons] at h
    push_neg at h
    have hne : (a == x.1) = false := by
      simpa using h.1
    simp [List.lookup, hne, ih h.2]

/-! ### Properties of `Path.addEdge` (claim C8) -/

lemma buildPath_go_nonneg : ∀ (es : List Edge) (p : Path),
    (∀ x ∈ p.edges, 0 ≤ x.weight) →
    ∀ x ∈ (es.foldl (fun q e => (q.addEdge e).1) p).edges, 0 ≤ x.weight := by
  intro es
  induction es with
  | nil =>
    intro p hp
    simpa using hp
  | cons e es ih =>
    intro p hp
    simp only [List.foldl_cons]
    apply ih
    intro x hx
    by_cases hw : e.weight < 0
    · simp only [Path.addEdge, if_pos hw] at hx
      exact hp x hx
    · simp only [Path.addEdge, if_neg hw, List.mem_append,
        List.mem_singleton] at hx
      rcases hx with hx | hx
      · exact hp x hx
      · subst hx
        omega

/-- C8: appending an edge to a `Path` fails (with the distinguishable error
result) exactly when the weight is negative; on failure the edge sequence is
unchanged, on success the edge is appended at the end; and consequently any
path built through the append operation never contains a negative weight. -/
theorem addEdge_characterization (p : Path) (e : Edge) :
    ((p.addEdge e).2 = false ↔ e.weight < 0) ∧
    ((p.addEdge e).2 = false → (p.addEdge e).1 = p) ∧
    ((p.addEdge e).2 = true → (p.addEdge e).1.edges = p.edges ++ [e]) ∧
    (∀ es : List Edge, ∀ x ∈ (buildPath es).edges, 0 ≤ x.weight) := by
  refine ⟨?_, ?_, ?_, ?_⟩
  · by_cases hw : e.weight < 0 <;> simp [Path.addEdge, hw]
  · by_cases hw : e.weight < 0 <;> simp [Path.addEdge, hw]
  · by_cases hw : e.weight < 0 <;> simp [Path.addEdge, hw]
  · intro es
    exact buildPath_go_nonneg es ⟨[]⟩ (by simp)

/-- Witness for `addEdge_characterization` at concrete inputs. -/
theorem addEdge_characterization_witness :
    ((Path.mk []).addEdge ⟨2, -3⟩).2 = false ∧
    ((Path.mk []).addEdge ⟨2, -3⟩).1 = ⟨[]⟩ ∧
    ((Path.mk [⟨7, 1⟩]).addEdge ⟨2, 5⟩).1.edges = [⟨7, 1⟩] ++ [⟨2, 5⟩] := by
  refine ⟨(addEdge_characterization ⟨[]⟩ ⟨2, -3⟩).1.mpr (by decide), ?_, ?_⟩
  · exact (addEdge_characterization ⟨[]⟩ ⟨2, -3⟩).2.1 (by decide)
  · exact (addEdge_characterization ⟨[⟨7, 1⟩]⟩ ⟨2, 5⟩).2.2.1 (by decide)

/-! ### The concrete scenario (claim C2) -/

/-- C2 counterexample: on the spec's concrete scenario the code reports
distance 1, not 3, to the claim's vertex 2 (creation id 3). -/
theorem shortestPaths_example_not_as_claimed :
    ¬(((exampleGraphC2.ShortestPaths 1).lookup 3).map Path.Distance
        = some 3) := by decide

/-- C2 amended: on the concrete scenario the reported distances are 1 to
vertex 2 (id 3), 3 to vertex 4 (id 5), 4 to vertex 5 (id 6), 10 to
vertex 1 (id 2), and vertex 3 (id 4) is unreachable (absent from the
result, its `ShortestPath` query yielding the sentinel distance −1). -/
theorem shortestPaths_example_distances :
    ((exampleGraphC2.ShortestPaths 1).lookup 3).map Path.Distance = some 1 ∧
    ((exampleGraphC2.ShortestPaths 1).lookup 5).map Path.Distance = some 3 ∧
    ((exampleGraphC2.ShortestPaths 1).lookup 6).map Path.Distance = some 4 ∧
    ((exampleGraphC2.ShortestPaths 1).lookup 2).map Path.Distance = some 10 ∧
    (exampleGraphC2.ShortestPaths 1).lookup 4 = none ∧
    (exampleGraphC2.ShortestPath 1 4).Distance = -1 := by decide

/-! ### Negative-weight relaxation (claim C4) -/

/-- C4: at the failing input the append of the negative edge fails with the
error result and the query still completes, but the relaxation step is not
skipped: vertex 3's recorded path is overwritten with vertex 2's path
`[(→2,2)]` — which has distance 2 and does not even end at vertex 3 —
instead of being left as the earlier tentative path `[(→3,10)]`. -/
theorem negativeRelaxation_behaviour :
    ((Path.mk [⟨2, 2⟩]).addEdge ⟨3, -1⟩).2 = false ∧
    (exampleGraphC4.ShortestPaths 1).lookup 3 = some ⟨[⟨2, 2⟩]⟩ ∧
    ((exampleGraphC4.ShortestPaths 1).lookup 3).map Path.Distance
      = some 2 ∧
    ((exampleGraphC4.ShortestPaths 1).lookup 3).map Path.Destination
      = some (some 2) := by decide

/-! ### The source vertex is never reported (claims C3 and C10) -/

lemma shortestPathsLoop_not_src (g : Graph) (src : Int) :
    ∀ (fuel : Nat) (h : List Edge) (paths : Int → Path)
      (s : List (Int × Path)), src ∉ s.map Prod.fst →
      src ∉ (dijkstraLoop g src (fun s v p => (s ++ [(v, p)], true))
        fuel h paths s).map Prod.fst := by
  intro fuel
  induction fuel with
  | zero =>
    intro h paths s hs
    simpa [dijkstraLoop] using hs
  | succ fuel ih =>
    intro h paths s hs
    by_cases hw0 : (heapPop h).1.weight < 0
    · simpa [dijkstraLoop, hw0] using hs
    · by_cases hd : (heapPop h).1.dst = src
      · simp only [dijkstraLoop, hw0, if_false, hd, ne_eq, not_true_eq_false,
          if_true, ite_false, ite_true, Bool.true_eq_false]
        exact ih _ _ _ hs
      · simp only [dijkstraLoop, hw0, if_false, ne_eq, hd, not_false_eq_true,
          if_true, ite_true, ite_false, Bool.true_eq_false]
        apply ih
        simp only [List.map_append, List.map_cons, List.map_nil,
          List.mem_append, List.mem_cons, List.not_mem_nil]
        rintro (hmem | hmem)
        · exact hs hmem
        · rcases hmem with hmem | hmem
          · exact hd hmem.symm
          · exact hmem

lemma shortestPathLoop_self_const (g : Graph) (src : Int) :
    ∀ (fuel : Nat) (h : List Edge) (paths : Int → Path) (s : Path),
      dijkstraLoop g src
        (fun s v p => if v = src then (p, false) else (s, true))
        fuel h paths s = s := by
  intro fuel
  induction fuel with
  | zero =>
    intro h paths s
    simp [dijkstraLoop]
  | succ fuel ih =>
    intro h paths s
    by_cases hw0 : (heapPop h).1.weight < 0
    · simp [dijkstraLoop, hw0]
    · by_cases hd : (heapPop h).1.dst = src
      · simp only [dijkstraLoop, hw0, if_false, hd, ne_eq, not_true_eq_false,
          if_true, ite_false, ite_true, Bool.true_eq_false]
        exact ih _ _ _
      · simp only [dijkstraLoop, hw0, if_false, ne_eq, hd, not_false_eq_true,
          if_true, ite_true, if_neg hd, ite_false, Bool.true_eq_false]
        exact ih _ _ _

/-- C3 counterexample: on a one-vertex graph the distance reported for the
source to itself is the sentinel −1 (and the source is absent from the
`ShortestPaths` result), not 0. -/
theorem sourceDistance_not_zero :
    (exampleGraphOne.ShortestPath 1 1).Distance = -1 ∧
    (exampleGraphOne.ShortestPaths 1).lookup 1 = none ∧
    ¬((-1 : Int) = 0) := by decide

/-- C3 amended: for every graph and source, the query never reports the
source at all: `ShortestPaths` omits it from the result and
`ShortestPath(source, source)` returns the empty path, whose distance is
the sentinel −1 rather than 0 (the claimed empty path part does hold). -/
theorem source_never_reported (g : Graph) (src : Int) :
    (g.ShortestPaths src).lookup src = none ∧
    g.ShortestPath src src = ⟨[]⟩ ∧
    (g.ShortestPath src src).Distance = -1 := by
  have h2 : g.ShortestPath src src = ⟨[]⟩ := by
    unfold Graph.ShortestPath Graph.dijkstra
    exact shortestPathLoop_self_const g src _ _ _ _
  refine ⟨?_, h2, ?_⟩
  · apply lookup_eq_none_of_not_mem
    unfold Graph.ShortestPaths Graph.dijkstra
    exact shortestPathsLoop_not_src g src _ _ _ [] (by simp)
  · rw [h2]
    rfl

/-! ### Record-level helpers for the graph mutators -/

lemma vid_removeEdge (v : GVertex) (dest : Int) :
    (v.removeEdge dest).vid = v.vid := rfl

lemma vid_addEdge (v : GVertex) (dest : Int) (w : Int) :
    (v.addEdge dest w).vid = v.vid := rfl

lemma keyed_unique {g : Graph} (hnd : nodupIds g) :
    ∀ v ∈ g.vertices, ∀ v' ∈ g.vertices, v.vid = v'.vid → v = v' := by
  intro v hv v' hv' h
  exact List.inj_on_of_nodup_map hnd hv hv' h

lemma vids_addEdgeTo (vs : List GVertex) (a b : Int) (w : Int) :
    (addEdgeTo vs a b w).map GVertex.vid = vs.map GVertex.vid := by
  unfold addEdgeTo
  rw [List.map_map]
  apply List.map_congr_left
  intro v _
  by_cases h : v.vid = a <;> simp [GVertex.addEdge, h]

lemma vids_removeEdgesFrom (vs : List GVertex) (a b : Int) :
    (removeEdgesFrom vs a b).map GVertex.vid = vs.map GVertex.vid := by
  unfold removeEdgesFrom
  rw [List.map_map]
  apply List.map_congr_left
  intro v _
  by_cases h : v.vid = a <;> simp [GVertex.removeEdge, h]

lemma vids_AddEdge (g : Graph) (a b : Int) (w : Int) :
    (g.AddEdge a b w).vertices.map GVertex.vid =
      g.vertices.map GVertex.vid := by
  unfold Graph.AddEdge
  by_cases h : g.gtype = GType.Bidirectional <;>
    simp [h, vids_addEdgeTo]

lemma vids_RemoveEdges (g : Graph) (a b : Int) :
    (g.RemoveEdges a b).vertices.map GVertex.vid =
      g.vertices.map GVertex.vid := by
  unfold Graph.RemoveEdges
  by_cases h : g.gtype = GType.Bidirectional <;>
    simp [h, vids_removeEdgesFrom]

/-! ### Claim C5: RemoveVertex -/

lemma RemoveVertex_of_any_false (g : Graph) (id : Int)
    (h : g.vertices.any (fun v => decide (v.vid = id)) = false) :
    g.RemoveVertex id = (g, false) := by
  unfold Graph.RemoveVertex
  rw [h]
  simp

/-- C5: `RemoveVertex(id)` returns false and leaves the graph unchanged
when `id` is absent; when present it deletes the record, strips every
remaining record of the edges targeting `id` (keeping the rest, as a
multiset), returns true, afterwards no outgoing list references `id`, and
a second call returns false and is again a no-op. -/
theorem removeVertex_characterization (g : Graph) (id : Int) :
    ((g.RemoveVertex id).2 = false ↔ ∀ v ∈ g.vertices, v.vid ≠ id) ∧
    ((g.RemoveVertex id).2 = false → (g.RemoveVertex id).1 = g) ∧
    ((∃ v ∈ g.vertices, v.vid = id) →
      (g.RemoveVertex id).2 = true ∧
      (∀ v ∈ (g.RemoveVertex id).1.vertices, v.vid ≠ id ∧
        ∀ e ∈ v.outgoing, e.dst ≠ id) ∧
      (∀ v ∈ g.vertices, v.vid ≠ id →
        ∃ v' ∈ (g.RemoveVertex id).1.vertices, v'.vid = v.vid ∧
          (v'.outgoing : Multiset Edge)
            = (v.outgoing.filter (notTo id) : Multiset Edge)) ∧
      ((g.RemoveVertex id).1.RemoveVertex id).2 = false ∧
      ((g.RemoveVertex id).1.RemoveVertex id).1 = (g.RemoveVertex id).1) := by
  by_cases hany : g.vertices.any (fun v => decide (v.vid = id)) = true
  · have hex : ∃ v ∈ g.vertices, v.vid = id := by
      simpa using List.any_eq_true.mp hany
    have hsnd : (g.RemoveVertex id).2 = true := by
      unfold Graph.RemoveVertex
      rw [if_pos hany]
    have hfst : (g.RemoveVertex id).1.vertices =
        (g.vertices.filter (fun v => decide (v.vid ≠ id))).map
          (fun v => v.removeEdge id) := by
      unfold Graph.RemoveVertex
      rw [if_pos hany]
    refine ⟨?_, ?_, ?_⟩
    · rw [hsnd]
      simp only [Bool.true_eq_false, false_iff]
      push_neg
      obtain ⟨v, hv, hvid⟩ := hex
      exact ⟨v, hv, hvid⟩
    · rw [hsnd]
      simp
    · intro _
      have hmem : ∀ v ∈ (g.RemoveVertex id).1.vertices, v.vid ≠ id ∧
          ∀ e ∈ v.outgoing, e.dst ≠ id := by
        rw [hfst]
        intro v hv
        simp only [List.mem_map, List.mem_filter] at hv
        obtain ⟨v0, ⟨hv0, hv0id⟩, rfl⟩ := hv
        refine ⟨by simpa [vid_removeEdge] using of_decide_eq_true hv0id, ?_⟩
        intro e he
        exact ((mem_removeEdge v0 id e).mp he).2
      have hsecond : ((g.RemoveVertex id).1.RemoveVertex id).2 = false ∧
          ((g.RemoveVertex id).1.RemoveVertex id).1 = (g.RemoveVertex id).1 := by
        have hnone : (g.RemoveVertex id).1.vertices.any
            (fun v => decide (v.vid = id)) = false := by
          rw [List.any_eq_false]
          intro v hv
          have := (hmem v hv).1
          simpa using this
        have h2 := RemoveVertex_of_any_false (g.RemoveVertex id).1 id hnone
        exact ⟨by rw [h2], by rw [h2]⟩
      refine ⟨hsnd, hmem, ?_, hsecond.1, hsecond.2⟩
      intro v hv hvid
      refine ⟨v.removeEdge id, ?_, vid_removeEdge v id, removeEdge_multiset v id⟩
      rw [hfst]
      simp only [List.mem_map, List.mem_filter]
      exact ⟨v, ⟨hv, by simpa using hvid⟩, rfl⟩
  · rw [Bool.not_eq_true] at hany
    have hall : ∀ v ∈ g.vertices, v.vid ≠ id := by
      have h3 := List.any_eq_false.mp hany
      intro v hv
      simpa using h3 v hv
    have heq : g.RemoveVertex id = (g, false) :=
      RemoveVertex_of_any_false g id hany
    refine ⟨?_, ?_, ?_⟩
    · rw [heq]
      simpa using hall
    · rw [heq]
      intro _
      rfl
    · intro hex
      obtain ⟨v, hv, hvid⟩ := hex
      exact absurd hvid (hall v hv)

/-- Witness for `removeVertex_characterization` on a concrete graph. -/
theorem removeVertex_characterization_witness :
    ((exampleGraphOne.RemoveVertex 2).2 = false →
      (exampleGraphOne.RemoveVertex 2).1 = exampleGraphOne) ∧
    (exampleGraphOne.RemoveVertex 1).2 = true ∧
    ((exampleGraphOne.RemoveVertex 1).1.RemoveVertex 1).2 = false := by
  refine ⟨(removeVertex_characterization exampleGraphOne 2).2.1, ?_, ?_⟩
  · exact ((removeVertex_characterization exampleGraphOne 1).2.2
      ⟨⟨1, []⟩, by decide, by decide⟩).1
  · exact ((removeVertex_characterization exampleGraphOne 1).2.2
      ⟨⟨1, []⟩, by decide, by decide⟩).2.2.2.1

/-! ### Claim C6: directionality modes -/

lemma AddEdge_vertices_bidi (g : Graph) (a b : Int) (w : Int)
    (h : g.gtype = GType.Bidirectional) :
    (g.AddEdge a b w).vertices = addEdgeTo (addEdgeTo g.vertices a b w) b a w := by
  simp [Graph.AddEdge, h]

lemma AddEdge_vertices_dir (g : Graph) (a b : Int) (w : Int)
    (h : g.gtype = GType.Directional) :
    (g.AddEdge a b w).vertices = addEdgeTo g.vertices a b w := by
  simp [Graph.AddEdge, h]

lemma RemoveEdges_vertices_bidi (g : Graph) (a b : Int)
    (h : g.gtype = GType.Bidirectional) :
    (g.RemoveEdges a b).vertices =
      removeEdgesFrom (removeEdgesFrom g.vertices a b) b a := by
  simp [Graph.RemoveEdges, h]

lemma RemoveEdges_vertices_dir (g : Graph) (a b : Int)
    (h : g.gtype = GType.Directional) :
    (g.RemoveEdges a b).vertices = removeEdgesFrom g.vertices a b := by
  simp [Graph.RemoveEdges, h]

/-- C6: on a bidirectional graph, `AddEdge(a,b,w)` makes both the edge
`a→b` and the mirrored edge `b→a` (weight `w`) exist, and
`RemoveEdges(a,b)` removes both directions; on a directional graph,
`AddEdge` and `RemoveEdges` affect only the `a→b` direction: the record of
`b` — hence every `b→a` edge — is left completely unchanged. -/
theorem edgeDirection_modes (g : Graph) (a b : Int) (w : Int)
    (va vb : GVertex) (hnd : nodupIds g) (hab : a ≠ b)
    (hva : va ∈ g.vertices) (hvb : vb ∈ g.vertices)
    (hida : va.vid = a) (hidb : vb.vid = b) :
    (g.gtype = GType.Bidirectional →
      hasEdgeW (g.AddEdge a b w) a b w ∧
      hasEdgeW (g.AddEdge a b w) b a w ∧
      noEdge (g.RemoveEdges a b) a b ∧
      noEdge (g.RemoveEdges a b) b a) ∧
    (g.gtype = GType.Directional →
      hasEdgeW (g.AddEdge a b w) a b w ∧
      (∀ v ∈ (g.AddEdge a b w).vertices, v.vid = b → v = vb) ∧
      (∀ v ∈ (g.RemoveEdges a b).vertices, v.vid = b → v = vb) ∧
      noEdge (g.RemoveEdges a b) a b) := by
  constructor
  · intro hbidi
    refine ⟨?_, ?_, ?_, ?_⟩
    · refine ⟨va.addEdge b w, ?_, by rw [vid_addEdge, hida], ?_⟩
      · rw [AddEdge_vertices_bidi g a b w hbidi]
        unfold addEdgeTo
        have h1 : (if va.vid = a then va.addEdge b w else va) ∈
            addEdgeTo g.vertices a b w := List.mem_map_of_mem _ hva
        rw [if_pos hida] at h1
        have h2 : (if (va.addEdge b w).vid = b
            then (va.addEdge b w).addEdge a w else va.addEdge b w) ∈
            addEdgeTo (addEdgeTo g.vertices a b w) b a w :=
          List.mem_map_of_mem _ h1
        rwa [if_neg (by rw [vid_addEdge, hida]; exact hab)] at h2
      · simp [GVertex.addEdge]
    · refine ⟨vb.addEdge a w, ?_, by rw [vid_addEdge, hidb], ?_⟩
      · rw [AddEdge_vertices_bidi g a b w hbidi]
        have h1 : (if vb.vid = a then vb.addEdge b w else vb) ∈
            addEdgeTo g.vertices a b w := List.mem_map_of_mem _ hvb
        rw [if_neg (by rw [hidb]; exact fun h => hab h.symm)] at h1
        have h2 : (if vb.vid = b then vb.addEdge a w else vb) ∈
            addEdgeTo (addEdgeTo g.vertices a b w) b a w :=
          List.mem_map_of_mem _ h1
        rwa [if_pos hidb] at h2
      · simp [GVertex.addEdge]
    · intro v hv hvid e he
      rw [RemoveEdges_vertices_bidi g a b hbidi] at hv
      obtain ⟨v1, hv1, rfl⟩ := List.mem_map.mp hv
      obtain ⟨v0, hv0, rfl⟩ := List.mem_map.mp hv1
      by_cases h0 : v0.vid = a
      · rw [if_pos h0] at hvid he
        rw [if_neg (by rw [vid_removeEdge, h0]; exact hab)] at hvid he
        exact ((mem_removeEdge v0 b e).mp he).2
      · rw [if_neg h0] at hvid he
        by_cases h1 : v0.vid = b
        · rw [if_pos h1] at hvid
          rw [vid_removeEdge] at hvid
          exact absurd (h1.symm.trans hvid) (fun h => hab h.symm)
        · rw [if_neg h1] at hvid
          exact absurd hvid h0
    · intro v hv hvid e he
      rw [RemoveEdges_vertices_bidi g a b hbidi] at hv
      obtain ⟨v1, hv1, rfl⟩ := List.mem_map.mp hv
      obtain ⟨v0, hv0, rfl⟩ := List.mem_map.mp hv1
      by_cases h0 : v0.vid = a
      · rw [if_pos h0] at hvid he
        rw [if_neg (by rw [vid_removeEdge, h0]; exact hab)] at hvid
        rw [vid_removeEdge] at hvid
        exact absurd (h0.symm.trans hvid) hab
      · rw [if_neg h0] at hvid he
        by_cases h1 : v0.vid = b
        · rw [if_pos h1] at he
          exact ((mem_removeEdge v0 a e).mp he).2
        · rw [if_neg h1] at hvid
          exact absurd hvid h1
  · intro hdir
    refine ⟨?_, ?_, ?_, ?_⟩
    · refine ⟨va.addEdge b w, ?_, by rw [vid_addEdge, hida], ?_⟩
      · rw [AddEdge_vertices_dir g a b w hdir]
        have h1 : (if va.vid = a then va.addEdge b w else va) ∈
            addEdgeTo g.vertices a b w := List.mem_map_of_mem _ hva
        rwa [if_pos hida] at h1
      · simp [GVertex.addEdge]
    · intro v hv hvid
      rw [AddEdge_vertices_dir g a b w hdir] at hv
      obtain ⟨v0, hv0, rfl⟩ := List.mem_map.mp hv
      by_cases h0 : v0.vid = a
      · rw [if_pos h0] at hvid
        rw [vid_addEdge] at hvid
        exact absurd (h0.symm.trans hvid) hab
      · rw [if_neg h0] at hvid ⊢
        exact keyed_unique hnd v0 hv0 vb hvb (hvid.trans hidb.symm)
    · intro v hv hvid
      rw [RemoveEdges_vertices_dir g a b hdir] at hv
      obtain ⟨v0, hv0, rfl⟩ := List.mem_map.mp hv
      by_cases h0 : v0.vid = a
      · rw [if_pos h0] at hvid
        rw [vid_removeEdge] at hvid
        exact absurd (h0.symm.trans hvid) hab
      · rw [if_neg h0] at hvid ⊢
        exact keyed_unique hnd v0 hv0 vb hvb (hvid.trans hidb.symm)
    · intro v hv hvid e he
      rw [RemoveEdges_vertices_dir g a b hdir] at hv
      obtain ⟨v0, hv0, rfl⟩ := List.mem_map.mp hv
      by_cases h0 : v0.vid = a
      · rw [if_pos h0] at he
        exact ((mem_removeEdge v0 b e).mp he).2
      · rw [if_neg h0] at hvid
        exact absurd hvid h0

/-- Witness for `edgeDirection_modes`: a concrete two-vertex bidirectional
graph and a concrete directional one. -/
theorem edgeDirection_modes_witness :
    (hasEdgeW (((Graph.New GType.Bidirectional).NewVertex.1.NewVertex.1).AddEdge
        1 2 7) 2 1 7) ∧
    (noEdge ((((Graph.New GType.Directional).NewVertex.1.NewVertex.1).AddEdge
        1 2 7).RemoveEdges 1 2) 1 2) := by
  have hb := edgeDirection_modes
    ((Graph.New GType.Bidirectional).NewVertex.1.NewVertex.1) 1 2 7
    ⟨1, []⟩ ⟨2, []⟩ (by decide) (by decide) (by decide) (by decide)
    (by decide) (by decide)
  have hd := edgeDirection_modes
    (((Graph.New GType.Directional).NewVertex.1.NewVertex.1).AddEdge 1 2 7)
    1 2 7 ⟨1, [⟨2, 7⟩]⟩ ⟨2, []⟩ (by decide) (by decide) (by decide)
    (by decide) (by decide) (by decide)
  exact ⟨(hb.1 (by decide)).2.1, (hd.2 (by decide)).2.2.2⟩

/-! ### Claim C7: RemoveEdges on a multigraph -/

/-- C7: `RemoveEdges(a,b)` removes every parallel `a→b` edge: afterwards
the record of `a` has no edge to `b` and carries exactly its previous
non-`b`-targeting edges (as a multiset), while the record of every vertex
other than `a` and `b` is completely untouched. -/
theorem removeEdges_multigraph (g : Graph) (a b : Int) (va : GVertex)
    (hnd : nodupIds g) (hva : va ∈ g.vertices) (hida : va.vid = a) :
    (∀ v ∈ (g.RemoveEdges a b).vertices, v.vid = a →
      (∀ e ∈ v.outgoing, e.dst ≠ b) ∧
      (v.outgoing : Multiset Edge)
        = (va.outgoing.filter (notTo b) : Multiset Edge)) ∧
    (∀ v ∈ g.vertices, v.vid ≠ a → v.vid ≠ b →
      v ∈ (g.RemoveEdges a b).vertices) ∧
    (∀ vb ∈ g.vertices, vb.vid = b → b ≠ a →
      ∀ v ∈ (g.RemoveEdges a b).vertices, v.vid = b →
        (v.outgoing : Multiset Edge) =
          (if g.gtype = GType.Bidirectional
            then (vb.outgoing.filter (notTo a) : Multiset Edge)
            else (vb.outgoing : Multiset Edge))) ∧
    (g.gtype = GType.Directional →
      ∀ v ∈ g.vertices, v.vid ≠ a → v ∈ (g.RemoveEdges a b).vertices) := by
  have hvert : (g.RemoveEdges a b).vertices =
      if g.gtype = GType.Bidirectional
        then removeEdgesFrom (removeEdgesFrom g.vertices a b) b a
        else removeEdgesFrom g.vertices a b := by
    by_cases h : g.gtype = GType.Bidirectional <;>
      simp [Graph.RemoveEdges, h]
  refine ⟨?_, ?_, ?_, ?_⟩
  · intro v hv hvid
    rw [hvert] at hv
    by_cases hbd : g.gtype = GType.Bidirectional
    · rw [if_pos hbd] at hv
      obtain ⟨v1, hv1, rfl⟩ := List.mem_map.mp hv
      obtain ⟨v0, hv0, rfl⟩ := List.mem_map.mp hv1
      by_cases hab : a = b
      · subst hab
        by_cases h0 : v0.vid = a
        · rw [if_pos h0] at hvid ⊢
          rw [if_pos (by rw [vid_removeEdge]; exact h0)] at hvid ⊢
          have hv0va : v0 = va := keyed_unique hnd v0 hv0 va hva
            (h0.trans hida.symm)
          subst hv0va
          constructor
          · intro e he
            exact ((mem_removeEdge _ a e).mp he).2
          · rw [removeEdge_multiset]
            have hperm : List.Perm (v0.removeEdge a).outgoing
                (v0.outgoing.filter (notTo a)) :=
              Multiset.coe_eq_coe.mp (removeEdge_multiset v0 a)
            rw [Multiset.coe_eq_coe]
            refine (hperm.filter _).trans ?_
            rw [List.filter_filter]
            have heq2 : List.filter (fun e => notTo a e && notTo a e)
                v0.outgoing = List.filter (notTo a) v0.outgoing :=
              List.filter_congr (fun e _ => by simp)
            rw [heq2]
        · rw [if_neg h0] at hvid ⊢
          rw [if_neg h0] at hvid ⊢
          exact absurd hvid h0
      · by_cases h0 : v0.vid = a
        · rw [if_pos h0] at hvid ⊢
          rw [if_neg (by rw [vid_removeEdge, h0]; exact hab)] at hvid ⊢
          have hv0va : v0 = va := keyed_unique hnd v0 hv0 va hva
            (h0.trans hida.symm)
          subst hv0va
          exact ⟨fun e he => ((mem_removeEdge _ b e).mp he).2,
            removeEdge_multiset _ b⟩
        · rw [if_neg h0] at hvid ⊢
          by_cases h1 : v0.vid = b
          · rw [if_pos h1] at hvid
            rw [vid_removeEdge] at hvid
            exact absurd (h1.symm.trans hvid) (fun h => hab h.symm)
          · rw [if_neg h1] at hvid
            exact absurd hvid h0
    · rw [if_neg hbd] at hv
      obtain ⟨v0, hv0, rfl⟩ := List.mem_map.mp hv
      by_cases h0 : v0.vid = a
      · rw [if_pos h0] at hvid ⊢
        have hv0va : v0 = va := keyed_unique hnd v0 hv0 va hva
          (h0.trans hida.symm)
        subst hv0va
        exact ⟨fun e he => ((mem_removeEdge _ b e).mp he).2,
          removeEdge_multiset _ b⟩
      · rw [if_neg h0] at hvid
        exact absurd hvid h0
  · intro v hv hva2 hvb2
    rw [hvert]
    by_cases hbd : g.gtype = GType.Bidirectional
    · rw [if_pos hbd]
      have h1 : (if v.vid = a then v.removeEdge b else v) ∈
          removeEdgesFrom g.vertices a b := List.mem_map_of_mem _ hv
      rw [if_neg hva2] at h1
      have h2 : (if v.vid = b then v.removeEdge a else v) ∈
          removeEdgesFrom (removeEdgesFrom g.vertices a b) b a :=
        List.mem_map_of_mem _ h1
      rwa [if_neg hvb2] at h2
    · rw [if_neg hbd]
      have h1 : (if v.vid = a then v.removeEdge b else v) ∈
          removeEdgesFrom g.vertices a b := List.mem_map_of_mem _ hv
      rwa [if_neg hva2] at h1
  · intro vb hvb hidb hba v hv hvid
    rw [hvert] at hv
    by_cases hbd : g.gtype = GType.Bidirectional
    · rw [if_pos hbd] at hv
      rw [if_pos hbd]
      obtain ⟨v1, hv1, rfl⟩ := List.mem_map.mp hv
      obtain ⟨v0, hv0, rfl⟩ := List.mem_map.mp hv1
      by_cases h0 : v0.vid = a
      · rw [if_pos h0] at hvid ⊢
        have hne : ¬(v0.removeEdge b).vid = b := by
          rw [vid_removeEdge, h0]
          exact fun hc => hba hc.symm
        rw [if_neg hne] at hvid ⊢
        rw [vid_removeEdge] at hvid
        exact absurd (h0.symm.trans hvid).symm hba
      · rw [if_neg h0] at hvid ⊢
        by_cases h1 : v0.vid = b
        · rw [if_pos h1] at hvid ⊢
          have hv0vb : v0 = vb := keyed_unique hnd v0 hv0 vb hvb
            (h1.trans hidb.symm)
          subst hv0vb
          exact removeEdge_multiset v0 a
        · rw [if_neg h1] at hvid
          exact absurd hvid h1
    · rw [if_neg hbd] at hv
      rw [if_neg hbd]
      obtain ⟨v0, hv0, rfl⟩ := List.mem_map.mp hv
      by_cases h0 : v0.vid = a
      · rw [if_pos h0] at hvid
        rw [vid_removeEdge] at hvid
        exact absurd (h0.symm.trans hvid).symm hba
      · rw [if_neg h0] at hvid ⊢
        have hv0vb : v0 = vb := keyed_unique hnd v0 hv0 vb hvb
          (hvid.trans hidb.symm)
        rw [hv0vb]
  · intro hdir v hv hva2
    rw [hvert]
    have hbd : ¬g.gtype = GType.Bidirectional := by
      rw [hdir]
      decide
    rw [if_neg hbd]
    have h1 : (if v.vid = a then v.removeEdge b else v) ∈
        removeEdgesFrom g.vertices a b := List.mem_map_of_mem _ hv
    rwa [if_neg hva2] at h1

/-- Witness for `removeEdges_multigraph`: removing the two parallel edges
`1→3` of the concrete multigraph deletes both of them. -/
theorem removeEdges_multigraph_witness :
    (∀ v ∈ (exampleGraphC7.RemoveEdges 1 3).vertices, v.vid = 1 →
      ∀ e ∈ v.outgoing, e.dst ≠ 3) ∧
    (⟨2, []⟩ : GVertex) ∈ (exampleGraphC7.RemoveEdges 1 3).vertices ∧
    (⟨3, []⟩ : GVertex) ∈ (exampleGraphC7.RemoveEdges 1 3).vertices := by
  have h := removeEdges_multigraph exampleGraphC7 1 3
    ⟨1, [⟨3, 1⟩, ⟨3, 5⟩]⟩ (by decide) (by decide) (by decide)
  exact ⟨fun v hv hvid => (h.1 v hv hvid).1,
    h.2.1 ⟨2, []⟩ (by decide) (by decide) (by decide),
    h.2.2.2 (by decide) ⟨3, []⟩ (by decide) (by decide)⟩

/-! ### Claim C9: identifier generation -/

lemma RemoveVertex_fst_idLast (g : Graph) (id : Int) :
    ((g.RemoveVertex id).1).idLast = g.idLast := by
  unfold Graph.RemoveVertex
  by_cases hany : g.vertices.any (fun v => decide (v.vid = id)) = true <;>
    simp [hany]

lemma RemoveVertex_vids_sublist (g : Graph) (id : Int) :
    ((g.RemoveVertex id).1.vertices.map GVertex.vid).Sublist
      (g.vertices.map GVertex.vid) := by
  unfold Graph.RemoveVertex
  by_cases hany : g.vertices.any (fun v => decide (v.vid = id)) = true
  · simp only [hany, if_true]
    rw [List.map_map]
    have heq : (g.vertices.filter (fun v => decide (v.vid ≠ id))).map
        (GVertex.vid ∘ fun v => v.removeEdge id) =
        (g.vertices.filter (fun v => decide (v.vid ≠ id))).map GVertex.vid :=
      List.map_congr_left (fun v _ => rfl)
    rw [heq]
    exact (List.filter_sublist _).map _
  · simp [hany]

lemma RemoveVertex_mem_vid (g : Graph) (id : Int) (v : GVertex)
    (hv : v ∈ (g.RemoveVertex id).1.vertices) :
    ∃ v0 ∈ g.vertices, v.vid = v0.vid := by
  revert hv
  unfold Graph.RemoveVertex
  by_cases hany : g.vertices.any (fun v => decide (v.vid = id)) = true
  · simp only [hany, if_true]
    intro hv
    simp only [List.mem_map, List.mem_filter] at hv
    obtain ⟨v0, ⟨hv0, _⟩, rfl⟩ := hv
    exact ⟨v0, hv0, rfl⟩
  · simp only [hany, if_false, Bool.false_eq_true]
    intro hv
    exact ⟨v, hv, rfl⟩

lemma mem_vid_of_vids_eq {vs vs' : List GVertex}
    (h : vs.map GVertex.vid = vs'.map GVertex.vid) :
    ∀ v ∈ vs, ∃ v' ∈ vs', v.vid = v'.vid := by
  intro v hv
  have hmem : v.vid ∈ vs'.map GVertex.vid := by
    rw [← h]
    exact List.mem_map_of_mem _ hv
  obtain ⟨v', hv', heq⟩ := List.mem_map.mp hmem
  exact ⟨v', hv', heq.symm⟩

lemma runOps_invariant : ∀ (ops : List Op) (g : Graph),
    (∀ v ∈ g.vertices, 0 < v.vid ∧ v.vid ≤ g.idLast) →
    nodupIds g → 0 ≤ g.idLast →
    (∀ x ∈ (runOps g ops).2, g.idLast < x) ∧
    (runOps g ops).2.Chain' (fun x y : Int => x < y) ∧
    g.idLast ≤ (runOps g ops).1.idLast ∧
    (∀ v ∈ (runOps g ops).1.vertices,
      0 < v.vid ∧ v.vid ≤ (runOps g ops).1.idLast) ∧
    nodupIds (runOps g ops).1 ∧ 0 ≤ (runOps g ops).1.idLast ∧
    (∀ v ∈ (runOps g ops).1.vertices,
      v.vid ≤ g.idLast ∨ v.vid ∈ (runOps g ops).2) := by
  intro ops
  induction ops with
  | nil =>
    intro g hb hnd hnn
    simp only [runOps]
    exact ⟨by simp, by simp, le_refl _, hb, hnd, hnn,
      fun v hv => Or.inl (hb v hv).2⟩
  | cons op ops ih =>
    intro g hb hnd hnn
    cases op with
    | newV =>
      have hrun1 : (runOps g (Op.newV :: ops)).1 =
          (runOps (g.NewVertex.1) ops).1 := by
        simp [runOps, applyOp]
      have hrun2 : (runOps g (Op.newV :: ops)).2 =
          (g.idLast + 1) :: (runOps (g.NewVertex.1) ops).2 := by
        simp [runOps, applyOp, Graph.NewVertex]
      have hidl : (g.NewVertex.1).idLast = g.idLast + 1 := rfl
      have hverts : (g.NewVertex.1).vertices
          = g.vertices ++ [⟨g.idLast + 1, []⟩] := rfl
      have hb' : ∀ v ∈ (g.NewVertex.1).vertices,
          0 < v.vid ∧ v.vid ≤ (g.NewVertex.1).idLast := by
        intro v hv
        rw [hverts] at hv
        rw [hidl]
        rcases List.mem_append.mp hv with hv | hv
        · have := hb v hv
          omega
        · rw [List.mem_singleton] at hv
          subst hv
          simp only []
          omega
      have hnd' : nodupIds (g.NewVertex.1) := by
        unfold nodupIds
        rw [hverts, List.map_append, List.nodup_append]
        refine ⟨hnd, by simp, ?_⟩
        intro x hx
        obtain ⟨v, hv, rfl⟩ := List.mem_map.mp hx
        have := (hb v hv).2
        simp only [List.map_cons, List.map_nil, List.mem_singleton]
        intro hcon
        rw [hcon] at this
        omega
      have hnn' : 0 ≤ (g.NewVertex.1).idLast := by
        rw [hidl]
        omega
      obtain ⟨i1, i2, i3, i4, i5, i6, i7⟩ := ih (g.NewVertex.1) hb' hnd' hnn'
      rw [hidl] at i1 i3
      rw [hrun1, hrun2]
      refine ⟨?_, ?_, ?_, i4, i5, i6, ?_⟩
      · intro x hx
        rcases List.mem_cons.mp hx with hx | hx
        · omega
        · have := i1 x hx
          omega
      · rw [List.chain'_cons']
        constructor
        · intro y hy
          have hmem := List.mem_of_mem_head? hy
          have := i1 y hmem
          omega
        · exact i2
      · omega
      · intro v hv
        rcases i7 v hv with hle | hmem
        · rw [hidl] at hle
          by_cases hc : v.vid ≤ g.idLast
          · exact Or.inl hc
          · refine Or.inr (List.mem_cons.mpr (Or.inl ?_))
            omega
        · exact Or.inr (List.mem_cons.mpr (Or.inr hmem))
    | removeV id =>
      have hrun1 : (runOps g (Op.removeV id :: ops)).1 =
          (runOps (g.RemoveVertex id).1 ops).1 := by
        simp [runOps, applyOp]
      have hrun2 : (runOps g (Op.removeV id :: ops)).2 =
          (runOps (g.RemoveVertex id).1 ops).2 := by
        simp [runOps, applyOp]
      have hidl := RemoveVertex_fst_idLast g id
      have hb' : ∀ v ∈ (g.RemoveVertex id).1.vertices,
          0 < v.vid ∧ v.vid ≤ (g.RemoveVertex id).1.idLast := by
        intro v hv
        obtain ⟨v0, hv0, heq⟩ := RemoveVertex_mem_vid g id v hv
        rw [heq, hidl]
        exact hb v0 hv0
      have hnd' : nodupIds (g.RemoveVertex id).1 :=
        (RemoveVertex_vids_sublist g id).nodup hnd
      obtain ⟨i1, i2, i3, i4, i5, i6, i7⟩ :=
        ih (g.RemoveVertex id).1 hb' hnd' (by rw [hidl]; exact hnn)
      rw [hrun1, hrun2]
      refine ⟨?_, i2, ?_, i4, i5, i6, ?_⟩
      · intro x hx
        have := i1 x hx
        omega
      · omega
      · intro v hv
        rcases i7 v hv with hle | hmem
        · exact Or.inl (by omega)
        · exact Or.inr hmem
    | addE a b w =>
      have hrun1 : (runOps g (Op.addE a b w :: ops)).1 =
          (runOps (g.AddEdge a b w) ops).1 := by
        simp [runOps, applyOp]
      have hrun2 : (runOps g (Op.addE a b w :: ops)).2 =
          (runOps (g.AddEdge a b w) ops).2 := by
        simp [runOps, applyOp]
      have hvids := vids_AddEdge g a b w
      have hidl : (g.AddEdge a b w).idLast = g.idLast := rfl
      have hb' : ∀ v ∈ (g.AddEdge a b w).vertices,
          0 < v.vid ∧ v.vid ≤ (g.AddEdge a b w).idLast := by
        intro v hv
        obtain ⟨v0, hv0, heq⟩ := mem_vid_of_vids_eq hvids v hv
        rw [heq, hidl]
        exact hb v0 hv0
      have hnd' : nodupIds (g.AddEdge a b w) := by
        unfold nodupIds
        rw [hvids]
        exact hnd
      obtain ⟨i1, i2, i3, i4, i5, i6, i7⟩ :=
        ih (g.AddEdge a b w) hb' hnd' (by rw [hidl]; exact hnn)
      rw [hrun1, hrun2]
      refine ⟨?_, i2, ?_, i4, i5, i6, ?_⟩
      · intro x hx
        have := i1 x hx
        omega
      · omega
      · intro v hv
        rcases i7 v hv with hle | hmem
        · exact Or.inl (by omega)
        · exact Or.inr hmem
    | removeE a b =>
      have hrun1 : (runOps g (Op.removeE a b :: ops)).1 =
          (runOps (g.RemoveEdges a b) ops).1 := by
        simp [runOps, applyOp]
      have hrun2 : (runOps g (Op.removeE a b :: ops)).2 =
          (runOps (g.RemoveEdges a b) ops).2 := by
        simp [runOps, applyOp]
      have hvids := vids_RemoveEdges g a b
      have hidl : (g.RemoveEdges a b).idLast = g.idLast := rfl
      have hb' : ∀ v ∈ (g.RemoveEdges a b).vertices,
          0 < v.vid ∧ v.vid ≤ (g.RemoveEdges a b).idLast := by
        intro v hv
        obtain ⟨v0, hv0, heq⟩ := mem_vid_of_vids_eq hvids v hv
        rw [heq, hidl]
        exact hb v0 hv0
      have hnd' : nodupIds (g.RemoveEdges a b) := by
        unfold nodupIds
        rw [hvids]
        exact hnd
      obtain ⟨i1, i2, i3, i4, i5, i6, i7⟩ :=
        ih (g.RemoveEdges a b) hb' hnd' (by rw [hidl]; exact hnn)
      rw [hrun1, hrun2]
      refine ⟨?_, i2, ?_, i4, i5, i6, ?_⟩
      · intro x hx
        have := i1 x hx
        omega
      · omega
      · intro v hv
        rcases i7 v hv with hle | hmem
        · exact Or.inl (by omega)
        · exact Or.inr hmem

/-- C9: across any sequence of interface calls on one graph instance the
ids returned by successive `NewVertex` calls are strictly increasing and
pairwise distinct, an id is never returned again even after its vertex was
removed, the live ids are pairwise distinct, and every live id is one that
`NewVertex` returned. -/
theorem identifier_uniqueness (t : GType) (ops : List Op) :
    (runOps (Graph.New t) ops).2.Chain' (fun x y : Int => x < y) ∧
    (runOps (Graph.New t) ops).2.Nodup ∧
    nodupIds (runOps (Graph.New t) ops).1 ∧
    (∀ v ∈ (runOps (Graph.New t) ops).1.vertices,
      v.vid ∈ (runOps (Graph.New t) ops).2) := by
  have h := runOps_invariant ops (Graph.New t) (by simp [Graph.New])
    (by simp [nodupIds, Graph.New]) (by simp [Graph.New])
  obtain ⟨i1, i2, i3, i4, i5, i6, i7⟩ := h
  refine ⟨i2, ?_, i5, ?_⟩
  · have hp := List.chain'_iff_pairwise.mp i2
    exact hp.nodup
  · intro v hv
    rcases i7 v hv with hle | hmem
    · have hpos := (i4 v hv).1
      have : (Graph.New t).idLast = 0 := rfl
      omega
    · exact hmem

/-- Witness for `identifier_uniqueness` on a concrete call sequence with an
interleaved removal. -/
theorem identifier_uniqueness_witness :
    (runOps (Graph.New GType.Directional)
      [Op.newV, Op.newV, Op.removeV 1, Op.newV]).2.Nodup ∧
    nodupIds (runOps (Graph.New GType.Directional)
      [Op.newV, Op.newV, Op.removeV 1, Op.newV]).1 :=
  ⟨(identifier_uniqueness GType.Directional
      [Op.newV, Op.newV, Op.removeV 1, Op.newV]).2.1,
    (identifier_uniqueness GType.Directional
      [Op.newV, Op.newV, Op.removeV 1, Op.newV]).2.2.1⟩

/-- Witness for `source_never_reported` at a concrete graph and source. -/
theorem source_never_reported_witness :
    (exampleGraphC2.ShortestPaths 3).lookup 3 = none ∧
    exampleGraphC2.ShortestPath 3 3 = ⟨[]⟩ :=
  ⟨(source_never_reported exampleGraphC2 3).1,
    (source_never_reported exampleGraphC2 3).2.1⟩

/-! ### Heap index and order basics -/

lemma lessW_true_iff (a b : Int) : lessW a b = true ↔ keyv a < keyv b := by
  unfold lessW keyv
  by_cases ha : a < 0 <;> by_cases hb : b < 0 <;>
    simp [ha, hb, WithTop.coe_lt_coe, WithTop.coe_lt_top]

lemma lessW_false_iff (a b : Int) : lessW a b = false ↔ keyv b ≤ keyv a := by
  rw [← Bool.not_eq_true, lessW_true_iff, not_lt]

lemma getD_set_self (l : List Edge) (i : Nat) (a : Edge) (h : i < l.length) :
    (l.set i a).getD i dummyE = a := by
  rw [List.getD_eq_getElem _ _ (by rw [List.length_set]; exact h)]
  exact List.getElem_set_self _

lemma getD_set_other (l : List Edge) (i j : Nat) (a : Edge) (h : i ≠ j) :
    (l.set i a).getD j dummyE = l.getD j dummyE := by
  by_cases hj : j < l.length
  · rw [List.getD_eq_getElem _ _ (by rw [List.length_set]; exact hj),
      List.getD_eq_getElem _ _ hj]
    exact List.getElem_set_ne h _
  · rw [List.getD_eq_getElem?_getD, List.getD_eq_getElem?_getD,
      List.getElem?_eq_none (by rw [List.length_set]; omega),
      List.getElem?_eq_none (by omega)]

lemma length_hswap (l : List Edge) (i j : Nat) :
    (hswap l i j).length = l.length := by
  unfold hswap
  rw [List.length_set, List.length_set]

lemma set_getD_self (l : List Edge) (i : Nat) :
    l.set i (l.getD i dummyE) = l := by
  by_cases h : i < l.length
  · rw [List.getD_eq_getElem _ _ h, List.set_eq_take_cons_drop _ h,
      ← List.drop_eq_getElem_cons h, List.take_append_drop]
  · exact List.set_eq_of_length_le (by omega)

lemma hswap_self (l : List Edge) (i : Nat) : hswap l i i = l := by
  unfold hswap
  rw [List.set_set]
  exact set_getD_self l i

lemma hw_hswap (l : List Edge) (i j k : Nat) (hi : i < l.length)
    (hj : j < l.length) :
    hw (hswap l i j) k =
      if k = j then hw l i else if k = i then hw l j else hw l k := by
  unfold hw hswap
  by_cases hkj : k = j
  · subst hkj
    rw [if_pos rfl, getD_set_self _ _ _ (by rw [List.length_set]; exact hj)]
  · rw [if_neg hkj, getD_set_other _ _ _ _ (fun h => hkj h.symm)]
    by_cases hki : k = i
    · subst hki
      rw [if_pos rfl, getD_set_self _ _ _ hi]
    · rw [if_neg hki, getD_set_other _ _ _ _ (fun h => hki h.symm)]

lemma hkey_hswap (l : List Edge) (i j k : Nat) (hi : i < l.length)
    (hj : j < l.length) :
    hkey (hswap l i j) k =
      if k = j then hkey l i else if k = i then hkey l j else hkey l k := by
  unfold hkey
  rw [hw_hswap l i j k hi hj]
  by_cases hkj : k = j
  · rw [if_pos hkj, if_pos hkj]
  · rw [if_neg hkj, if_neg hkj]
    by_cases hki : k = i
    · rw [if_pos hki, if_pos hki]
    · rw [if_neg hki, if_neg hki]

lemma ms_set (l : List Edge) (i : Nat) (a : Edge) (h : i < l.length) :
    (l.set i a : Multiset Edge) + {l.getD i dummyE} =
      (l : Multiset Edge) + {a} := by
  rw [List.getD_eq_getElem _ _ h]
  rw [List.set_eq_take_cons_drop _ h]
  conv_rhs => rw [← List.take_append_drop i l, List.drop_eq_getElem_cons h]
  rw [← Multiset.coe_add, ← Multiset.coe_add, ← Multiset.cons_coe,
    ← Multiset.cons_coe, ← Multiset.singleton_add, ← Multiset.singleton_add]
  abel

lemma perm_hswap (l : List Edge) (i j : Nat) (hi : i < l.length)
    (hj : j < l.length) : List.Perm (hswap l i j) l := by
  by_cases hij : i = j
  · rw [hij, hswap_self]
  · rw [← Multiset.coe_eq_coe]
    unfold hswap
    have h1 := ms_set (l.set i (l.getD j dummyE)) j (l.getD i dummyE)
      (by rw [List.length_set]; exact hj)
    rw [getD_set_other _ _ _ _ hij] at h1
    have h2 := ms_set l i (l.getD j dummyE) hi
    exact add_right_cancel (h1.trans h2)

lemma getD_dropLast (l : List Edge) (k : Nat) (h : k < l.length - 1) :
    l.dropLast.getD k dummyE = l.getD k dummyE := by
  rw [List.getD_eq_getElem _ _ (by rw [List.length_dropLast]; omega),
    List.getD_eq_getElem _ _ (by omega)]
  exact List.getElem_dropLast l k _

/-! ### Behaviour of Go `down` -/

lemma downLoop_succ (fuel : Nat) (l : List Edge) (i n : Nat) :
    downLoop (fuel + 1) l i n =
      if 2 * i + 1 < n then
        (if hLess l (dchild l i n) i = true then
          downLoop fuel (hswap l i (dchild l i n)) (dchild l i n) n
        else (l, i))
      else (l, i) := by
  rfl

lemma dchild_is_child (l : List Edge) (i n : Nat) (h : 2 * i + 1 < n) :
    0 < dchild l i n ∧ dchild l i n < n ∧ (dchild l i n - 1) / 2 = i := by
  unfold dchild
  by_cases h2 : 2 * i + 1 + 1 < n ∧ hLess l (2 * i + 1 + 1) (2 * i + 1) = true
  · rw [if_pos h2]
    refine ⟨by omega, h2.1, by omega⟩
  · rw [if_neg h2]
    exact ⟨by omega, h, by omega⟩

lemma dchild_min (l : List Edge) (i n : Nat) (h : 2 * i + 1 < n) :
    ∀ c, 0 < c → c < n → (c - 1) / 2 = i →
      hkey l (dchild l i n) ≤ hkey l c := by
  intro c hc0 hcn hcp
  have hc : c = 2 * i + 1 ∨ c = 2 * i + 1 + 1 := by omega
  unfold dchild
  by_cases h2 : 2 * i + 1 + 1 < n ∧ hLess l (2 * i + 1 + 1) (2 * i + 1) = true
  · rw [if_pos h2]
    have hlt := (lessW_true_iff _ _).mp h2.2
    rcases hc with hc | hc <;> subst hc
    · exact le_of_lt hlt
    · exact le_refl _
  · rw [if_neg h2]
    rcases hc with hc | hc <;> subst hc
    · exact le_refl _
    · rw [Classical.not_and_iff_or_not_not] at h2
      rcases h2 with h2 | h2
      · omega
      · rw [Bool.not_eq_true] at h2
        exact (lessW_false_iff _ _).mp h2

lemma downLoop_fst_length : ∀ (fuel : Nat) (l : List Edge) (i n : Nat),
    (downLoop fuel l i n).1.length = l.length := by
  intro fuel
  induction fuel with
  | zero => intro l i n; rfl
  | succ fuel ih =>
    intro l i n
    rw [downLoop_succ]
    by_cases h1 : 2 * i + 1 < n
    · rw [if_pos h1]
      by_cases h2 : hLess l (dchild l i n) i = true
      · rw [if_pos h2, ih, length_hswap]
      · rw [if_neg h2]
    · rw [if_neg h1]

lemma downLoop_snd_ge : ∀ (fuel : Nat) (l : List Edge) (i n : Nat),
    i ≤ (downLoop fuel l i n).2 := by
  intro fuel
  induction fuel with
  | zero => intro l i n; exact le_refl _
  | succ fuel ih =>
    intro l i n
    rw [downLoop_succ]
    by_cases h1 : 2 * i + 1 < n
    · rw [if_pos h1]
      by_cases h2 : hLess l (dchild l i n) i = true
      · rw [if_pos h2]
        have hj := ih (hswap l i (dchild l i n)) (dchild l i n) n
        have hc := dchild_is_child l i n h1
        omega
      · rw [if_neg h2]
    · rw [if_neg h1]

lemma downLoop_eq_of_snd_eq : ∀ (fuel : Nat) (l : List Edge) (i n : Nat),
    (downLoop fuel l i n).2 = i → (downLoop fuel l i n).1 = l := by
  intro fuel
  induction fuel with
  | zero => intro l i n _; rfl
  | succ fuel ih =>
    intro l i n hsnd
    rw [downLoop_succ] at hsnd ⊢
    by_cases h1 : 2 * i + 1 < n
    · rw [if_pos h1] at hsnd ⊢
      by_cases h2 : hLess l (dchild l i n) i = true
      · rw [if_pos h2] at hsnd
        have hj := downLoop_snd_ge fuel (hswap l i (dchild l i n))
          (dchild l i n) n
        have hc := dchild_is_child l i n h1
        omega
      · rw [if_neg h2]
    · rw [if_neg h1]

lemma downLoop_perm : ∀ (fuel : Nat) (l : List Edge) (i n : Nat),
    n ≤ l.length → i < n ∨ n ≤ 2 * i + 1 →
    List.Perm (downLoop fuel l i n).1 l := by
  intro fuel
  induction fuel with
  | zero => intro l i n _ _; exact List.Perm.refl _
  | succ fuel ih =>
    intro l i n hn hi
    rw [downLoop_succ]
    by_cases h1 : 2 * i + 1 < n
    · rw [if_pos h1]
      by_cases h2 : hLess l (dchild l i n) i = true
      · rw [if_pos h2]
        have hc := dchild_is_child l i n h1
        have hswp := perm_hswap l i (dchild l i n) (by omega) (by omega)
        have hper := ih (hswap l i (dchild l i n)) (dchild l i n) n
          (by rw [length_hswap]; exact hn) (Or.inl hc.2.1)
        exact hper.trans hswp
      · rw [if_neg h2]
    · rw [if_neg h1]

lemma downLoop_untouched : ∀ (fuel : Nat) (l : List Edge) (i n k : Nat),
    n ≤ l.length → (i < n ∨ n ≤ 2 * i + 1) → n ≤ k →
    (downLoop fuel l i n).1.getD k dummyE = l.getD k dummyE := by
  intro fuel
  induction fuel with
  | zero => intro l i n k _ _ _; rfl
  | succ fuel ih =>
    intro l i n k hn hi hk
    rw [downLoop_succ]
    by_cases h1 : 2 * i + 1 < n
    · rw [if_pos h1]
      by_cases h2 : hLess l (dchild l i n) i = true
      · rw [if_pos h2]
        have hc := dchild_is_child l i n h1
        rw [ih (hswap l i (dchild l i n)) (dchild l i n) n k
          (by rw [length_hswap]; exact hn) (Or.inl hc.2.1) hk]
        unfold hswap
        rw [getD_set_other _ _ _ _ (by omega),
          getD_set_other _ _ _ _ (by omega)]
      · rw [if_neg h2]
    · rw [if_neg h1]

lemma downLoop_spec : ∀ (fuel : Nat) (l : List Edge) (n start hole : Nat),
    n ≤ l.length → n - hole ≤ fuel →
    SiftDownState l n start hole →
    HeapFromN (downLoop fuel l hole n).1 n start := by
  intro fuel
  induction fuel with
  | zero =>
    intro l n start hole hn hfu st
    have := st.bounded
    omega
  | succ fuel ih =>
    intro l n start hole hn hfu st
    rw [downLoop_succ]
    by_cases h1 : 2 * hole + 1 < n
    · rw [if_pos h1]
      obtain ⟨hj0, hjn, hjp⟩ := dchild_is_child l hole n h1
      have hjmin := dchild_min l hole n h1
      by_cases h2 : hLess l (dchild l hole n) hole = true
      · rw [if_pos h2]
        have hlt := (lessW_true_iff _ _).mp h2
        set j := dchild l hole n with hjdef
        have hbnd := st.bounded
        have hswp : ∀ k, hkey (hswap l hole j) k =
            if k = j then hkey l hole
            else if k = hole then hkey l j else hkey l k :=
          fun k => hkey_hswap l hole j k (by omega) (by omega)
        apply ih _ n start j (by rw [length_hswap]; exact hn) (by omega)
        have hlow := st.lower
        refine ⟨by omega, hjn, ?_, ?_⟩
        · -- heap edges except those out of j
          intro c hc0 hcn hcs hcne
          rw [hswp c, hswp ((c - 1) / 2)]
          rw [if_neg hcne]
          by_cases hq : (c - 1) / 2 = hole
          · rw [if_pos hq]
            by_cases hcj : c = j
            · rw [if_pos hcj]
              exact le_of_lt hlt
            · rw [if_neg hcj, if_neg (by omega : ¬c = hole)]
              exact hjmin c hc0 hcn hq
          · rw [if_neg hq]
            by_cases hcj : c = j
            · exact absurd (by rw [hcj]; exact hjp) hq
            · rw [if_neg hcj]
              by_cases hch : c = hole
              · rw [if_pos hch]
                have h8 : (c - 1) / 2 < hole := by omega
                have hs_lt : start < hole := by omega
                have h9 : (c - 1) / 2 = (hole - 1) / 2 := by omega
                rw [h9]
                exact st.upper hs_lt j hj0 hjn hjp
              · rw [if_neg hch]
                exact st.heap c hc0 hcn hcs hq
        · -- children of j bounded below by the value now in the old hole
          intro hsj c hc0 hcn hcp
          have hcj : c ≠ j := by omega
          have hch : c ≠ hole := by omega
          rw [hjp, hswp c, hswp hole]
          rw [if_neg hcj, if_neg hch, if_neg (by omega : ¬hole = j),
            if_pos rfl, ← hcp]
          exact st.heap c hc0 hcn (by omega) (by omega)
      · rw [if_neg h2]
        rw [Bool.not_eq_true] at h2
        have hge := (lessW_false_iff _ _).mp h2
        intro c hc0 hcn hcs
        by_cases hq : (c - 1) / 2 = hole
        · rw [hq]
          exact le_trans hge (hjmin c hc0 hcn hq)
        · exact st.heap c hc0 hcn hcs hq
    · rw [if_neg h1]
      intro c hc0 hcn hcs
      by_cases hq : (c - 1) / 2 = hole
      · omega
      · exact st.heap c hc0 hcn hcs hq

/-! ### Behaviour of Go `up` -/

lemma upLoop_succ (fuel : Nat) (l : List Edge) (j : Nat) :
    upLoop (fuel + 1) l j =
      if j ≠ 0 then
        (if hLess l j ((j - 1) / 2) = true then
          upLoop fuel (hswap l ((j - 1) / 2) j) ((j - 1) / 2)
        else l)
      else l := by
  rfl

lemma upLoop_length : ∀ (fuel : Nat) (l : List Edge) (j : Nat),
    (upLoop fuel l j).length = l.length := by
  intro fuel
  induction fuel with
  | zero => intro l j; rfl
  | succ fuel ih =>
    intro l j
    rw [upLoop_succ]
    by_cases h0 : j ≠ 0
    · rw [if_pos h0]
      by_cases h2 : hLess l j ((j - 1) / 2) = true
      · rw [if_pos h2, ih, length_hswap]
      · rw [if_neg h2]
    · rw [if_neg h0]

lemma upLoop_perm : ∀ (fuel : Nat) (l : List Edge) (j : Nat),
    j < l.length → List.Perm (upLoop fuel l j) l := by
  intro fuel
  induction fuel with
  | zero => intro l j _; exact List.Perm.refl _
  | succ fuel ih =>
    intro l j hj
    rw [upLoop_succ]
    by_cases h0 : j ≠ 0
    · rw [if_pos h0]
      by_cases h2 : hLess l j ((j - 1) / 2) = true
      · rw [if_pos h2]
        have hp : (j - 1) / 2 < l.length := by omega
        have h3 := ih (hswap l ((j - 1) / 2) j) ((j - 1) / 2)
          (by rw [length_hswap]; omega)
        exact h3.trans (perm_hswap l ((j - 1) / 2) j hp hj)
      · rw [if_neg h2]
    · rw [if_neg h0]

lemma upLoop_spec : ∀ (fuel : Nat) (l : List Edge) (n j : Nat),
    n ≤ l.length → j < n → j ≤ fuel → SiftUpState l n j →
    HeapFromN (upLoop fuel l j) n 0 := by
  intro fuel
  induction fuel with
  | zero =>
    intro l n j hn hj hfu st
    have hj0 : j = 0 := by omega
    subst hj0
    rw [show upLoop 0 l 0 = l from rfl]
    intro c hc0 hcn _
    exact st.heap c hc0 hcn (by omega)
  | succ fuel ih =>
    intro l n j hn hj hfu st
    rw [upLoop_succ]
    by_cases h0 : j ≠ 0
    · rw [if_pos h0]
      by_cases h2 : hLess l j ((j - 1) / 2) = true
      · rw [if_pos h2]
        have hlt := (lessW_true_iff _ _).mp h2
        have hpj : (j - 1) / 2 < j := by omega
        have hpn : (j - 1) / 2 < n := by omega
        have hswp : ∀ k, hkey (hswap l ((j - 1) / 2) j) k =
            if k = j then hkey l ((j - 1) / 2)
            else if k = (j - 1) / 2 then hkey l j else hkey l k :=
          fun k => hkey_hswap l ((j - 1) / 2) j k (by omega) (by omega)
        apply ih _ n ((j - 1) / 2) (by rw [length_hswap]; exact hn) hpn
          (by omega)
        refine ⟨hpn, ?_, ?_⟩
        · -- all edges ordered except the one into the new hole
          intro c hc0 hcn hcne
          rw [hswp c, hswp ((c - 1) / 2)]
          by_cases hcj : c = j
          · -- the edge from the new hole into the old one
            rw [if_pos hcj, if_neg (by omega : ¬(c - 1) / 2 = j),
              if_pos (by omega : (c - 1) / 2 = (j - 1) / 2)]
            exact le_of_lt hlt
          · rw [if_neg hcj]
            by_cases hq : (c - 1) / 2 = j
            · -- a child of the old hole, now holding the old parent value
              rw [if_pos hq, if_neg (by omega : ¬c = (j - 1) / 2)]
              exact st.lower c hc0 hcn hq
            · rw [if_neg hq]
              by_cases hqp : (c - 1) / 2 = (j - 1) / 2
              · -- a sibling of the old hole under the same parent
                rw [if_pos hqp, if_neg (by omega : ¬c = (j - 1) / 2)]
                exact le_trans (le_of_lt hlt)
                  (by rw [← hqp]; exact st.heap c hc0 hcn hcj)
              · rw [if_neg hqp, if_neg (by omega : ¬c = (j - 1) / 2)]
                exact st.heap c hc0 hcn hcj
        · -- children of the new hole bounded by its own parent
          intro c hc0 hcn hcp
          have hx : hkey (hswap l ((j - 1) / 2) j) c =
              if c = j then hkey l ((j - 1) / 2) else hkey l c := by
            rw [hswp c]
            by_cases hcj : c = j
            · rw [if_pos hcj, if_pos hcj]
            · rw [if_neg hcj, if_neg hcj,
                if_neg (show ¬c = (j - 1) / 2 by omega)]
          by_cases hp0 : (j - 1) / 2 = 0
          · -- the new hole is the root: its parent slot holds the value
            have hgp : ((j - 1) / 2 - 1) / 2 = (j - 1) / 2 := by omega
            have hy : hkey (hswap l ((j - 1) / 2) j) (((j - 1) / 2 - 1) / 2)
                = hkey l j := by
              rw [hgp, hswp ((j - 1) / 2),
                if_neg (show ¬(j - 1) / 2 = j by omega), if_pos rfl]
            rw [hy, hx]
            by_cases hcj : c = j
            · rw [if_pos hcj]
              exact le_of_lt hlt
            · rw [if_neg hcj]
              have h5 := st.heap c hc0 hcn hcj
              rw [hcp] at h5
              exact le_trans (le_of_lt hlt) h5
          · -- deeper: chain through the old parent value
            have hy : hkey (hswap l ((j - 1) / 2) j) (((j - 1) / 2 - 1) / 2)
                = hkey l (((j - 1) / 2 - 1) / 2) := by
              rw [hswp (((j - 1) / 2 - 1) / 2),
                if_neg (show ¬((j - 1) / 2 - 1) / 2 = j by omega),
                if_neg (show ¬((j - 1) / 2 - 1) / 2 = (j - 1) / 2 by omega)]
            rw [hy, hx]
            have hpar : hkey l (((j - 1) / 2 - 1) / 2) ≤
                hkey l ((j - 1) / 2) :=
              st.heap ((j - 1) / 2) (by omega) (by omega) (by omega)
            by_cases hcj : c = j
            · rw [if_pos hcj]
              exact hpar
            · rw [if_neg hcj]
              have h5 := st.heap c hc0 hcn hcj
              rw [hcp] at h5
              exact le_trans hpar h5
      · rw [if_neg h2]
        rw [Bool.not_eq_true] at h2
        have hge := (lessW_false_iff _ _).mp h2
        intro c hc0 hcn _
        by_cases hcj : c = j
        · subst hcj
          exact hge
        · exact st.heap c hc0 hcn hcj
    · rw [if_neg h0]
      push_neg at h0
      subst h0
      intro c hc0 hcn _
      exact st.heap c hc0 hcn (by omega)

lemma upLoop_of_heapN (fuel : Nat) (l : List Edge) (n j : Nat)
    (hn : n ≤ l.length) (hj : j < n) (hheap : HeapFromN l n 0) :
    upLoop fuel l j = l := by
  cases fuel with
  | zero => rfl
  | succ fuel =>
    rw [upLoop_succ]
    by_cases h0 : j ≠ 0
    · rw [if_pos h0]
      have hedge := hheap j (by omega) hj (by omega)
      have hfalse : ¬(hLess l j ((j - 1) / 2) = true) := by
        rw [Bool.not_eq_true]
        show lessW (hw l j) (hw l ((j - 1) / 2)) = false
        rw [lessW_false_iff]
        exact hedge
      rw [if_neg hfalse]
    · rw [if_neg h0]

/-! ### Specifications of the Go heap operations -/

lemma heapN_root_min (l : List Edge) (n : Nat) (h : HeapFromN l n 0) :
    ∀ k, k < n → hkey l 0 ≤ hkey l k := by
  intro k
  induction k using Nat.strong_induction_on with
  | _ k ih =>
    intro hk
    by_cases hk0 : k = 0
    · subst hk0
      exact le_refl _
    · have hpar := h k (by omega) hk (by omega)
      exact le_trans (ih ((k - 1) / 2) (by omega) (by omega)) hpar

lemma heapFix_eq (l : List Edge) (i : Nat) :
    heapFix l i =
      if i < (downLoop l.length l i l.length).2
        then (downLoop l.length l i l.length).1
        else upLoop l.length (downLoop l.length l i l.length).1 i := by
  rfl

lemma heapFix_length (l : List Edge) (i : Nat) :
    (heapFix l i).length = l.length := by
  rw [heapFix_eq]
  by_cases h : i < (downLoop l.length l i l.length).2
  · rw [if_pos h, downLoop_fst_length]
  · rw [if_neg h, upLoop_length, downLoop_fst_length]

lemma heapFix_perm (l : List Edge) (i : Nat) (hi : i < l.length) :
    List.Perm (heapFix l i) l := by
  rw [heapFix_eq]
  by_cases h : i < (downLoop l.length l i l.length).2
  · rw [if_pos h]
    exact downLoop_perm _ _ _ _ (le_refl _) (Or.inl hi)
  · rw [if_neg h]
    have hsnd : (downLoop l.length l i l.length).2 = i := by
      have := downLoop_snd_ge l.length l i l.length
      omega
    rw [downLoop_eq_of_snd_eq _ _ _ _ hsnd]
    exact upLoop_perm _ _ _ hi

lemma downLoop_stay (fuel : Nat) (l : List Edge) (i n : Nat)
    (h1 : ¬2 * i + 1 < n ∨ hLess l (dchild l i n) i = false)
    (hfu : 0 < fuel) :
    downLoop fuel l i n = (l, i) := by
  cases fuel with
  | zero => omega
  | succ fuel =>
    rw [downLoop_succ]
    rcases h1 with h1 | h1
    · rw [if_neg h1]
    · by_cases h2 : 2 * i + 1 < n
      · rw [if_pos h2, if_neg (by rw [h1]; simp)]
      · rw [if_neg h2]

lemma heapFix_spec (l0 : List Edge) (i : Nat) (x : Edge)
    (hi : i < l0.length) (hheap : HeapN l0 l0.length) :
    HeapN (heapFix (l0.set i x) i) l0.length := by
  have hlen : (l0.set i x).length = l0.length := List.length_set l0 i x
  have hkl : ∀ k, k ≠ i → hkey (l0.set i x) k = hkey l0 k := by
    intro k hk
    unfold hkey hw
    rw [getD_set_other _ _ _ _ (fun h => hk h.symm)]
  have hki : hkey (l0.set i x) i = keyv x.weight := by
    unfold hkey hw
    rw [getD_set_self _ _ _ hi]
  have hup0 : ∀ c, 0 < c → c < l0.length → c ≠ i → (c - 1) / 2 ≠ i →
      hkey (l0.set i x) ((c - 1) / 2) ≤ hkey (l0.set i x) c := by
    intro c hc0 hcn hci hqi
    rw [hkl c hci, hkl _ hqi]
    exact hheap c hc0 hcn (by omega)
  have hchain : 0 < i → ∀ c, 0 < c → c < l0.length → (c - 1) / 2 = i →
      hkey (l0.set i x) ((i - 1) / 2) ≤ hkey (l0.set i x) c := by
    intro hi0 c hc0 hcn hcp
    rw [hkl _ (by omega), hkl _ (by omega)]
    refine le_trans (hheap i hi0 (by omega) (by omega)) ?_
    have h5 := hheap c hc0 hcn (by omega)
    rw [hcp] at h5
    exact h5
  rw [heapFix_eq, hlen]
  by_cases h1 : 2 * i + 1 < l0.length
  · by_cases h2 : hLess (l0.set i x) (dchild (l0.set i x) i l0.length) i
      = true
    · -- the new value sinks: Go runs `down` from `i`
      obtain ⟨hj0, hjn, hjp⟩ := dchild_is_child (l0.set i x) i l0.length h1
      have hlt := (lessW_true_iff _ _).mp h2
      have hdown := downLoop_spec l0.length (l0.set i x) l0.length 0 i
        (by omega) (by omega) ?_
      · by_cases hmv : i < (downLoop l0.length (l0.set i x) i l0.length).2
        · rw [if_pos hmv]
          exact hdown
        · rw [if_neg hmv]
          have hsnd : (downLoop l0.length (l0.set i x) i l0.length).2 = i := by
            have := downLoop_snd_ge l0.length (l0.set i x) i l0.length
            omega
          have hd1 := downLoop_eq_of_snd_eq l0.length (l0.set i x) i
            l0.length hsnd
          rw [hd1] at hdown ⊢
          rw [upLoop_of_heapN _ _ l0.length i (by omega) (by omega) hdown]
          exact hdown
      · refine ⟨by omega, by omega, ?_, ?_⟩
        · intro c hc0 hcn _ hqi
          by_cases hci : c = i
          · -- the edge into the updated slot
            subst hci
            rw [hkl _ hqi, hki]
            have hd_ne : dchild (l0.set c x) c l0.length ≠ c := by omega
            have h6 : hkey l0 ((c - 1) / 2) ≤
                hkey l0 (dchild (l0.set c x) c l0.length) := by
              refine le_trans (hheap c hc0 (by omega) (by omega)) ?_
              have h7 := hheap (dchild (l0.set c x) c l0.length) hj0 hjn
                (by omega)
              rw [hjp] at h7
              exact h7
            refine le_of_lt (lt_of_le_of_lt h6 ?_)
            have h8 : hkey l0 (dchild (l0.set c x) c l0.length) =
                hkey (l0.set c x) (dchild (l0.set c x) c l0.length) :=
              (hkl _ hd_ne).symm
            rw [h8, ← hki]
            exact hlt
          · exact hup0 c hc0 hcn hci hqi
        · intro hi0 c hc0 hcn hcp
          exact hchain hi0 c hc0 hcn hcp
    · -- the new value does not sink: Go runs `up` from `i`
      rw [Bool.not_eq_true] at h2
      have hge := (lessW_false_iff _ _).mp h2
      have hmin := dchild_min (l0.set i x) i l0.length h1
      rw [downLoop_stay _ _ _ _ (Or.inr h2) (by omega)]
      rw [if_neg (by omega)]
      apply upLoop_spec l0.length (l0.set i x) l0.length i (by omega)
        (by omega) (by omega)
      refine ⟨by omega, ?_, ?_⟩
      · intro c hc0 hcn hci
        by_cases hqi : (c - 1) / 2 = i
        · rw [hqi, hki]
          refine le_trans ?_ (hmin c hc0 hcn hqi)
          rw [← hki]
          exact hge
        · exact hup0 c hc0 hcn hci hqi
      · intro c hc0 hcn hcp
        by_cases hi0 : 0 < i
        · exact hchain hi0 c hc0 hcn hcp
        · have hie : i = 0 := by omega
          subst hie
          rw [show (0 - 1) / 2 = 0 from rfl, hki]
          refine le_trans ?_ (hmin c hc0 hcn hcp)
          rw [← hki]
          exact hge
  · -- the updated slot has no children: Go runs `up` from `i`
    rw [downLoop_stay _ _ _ _ (Or.inl h1) (by omega)]
    rw [if_neg (by omega)]
    apply upLoop_spec l0.length (l0.set i x) l0.length i (by omega)
      (by omega) (by omega)
    refine ⟨by omega, ?_, ?_⟩
    · intro c hc0 hcn hci
      by_cases hqi : (c - 1) / 2 = i
      · omega
      · exact hup0 c hc0 hcn hci hqi
    · intro c hc0 hcn hcp
      omega

lemma getLast?_getD (l : List Edge) :
    l.getLast?.getD dummyE = l.getD (l.length - 1) dummyE := by
  rw [List.getLast?_eq_getElem? l, List.getD_eq_getElem?_getD]

lemma heapPop_eq (l : List Edge) :
    heapPop l =
      (((downLoop l.length (hswap l 0 (l.length - 1)) 0
          (l.length - 1)).1).getLast?.getD dummyE,
       ((downLoop l.length (hswap l 0 (l.length - 1)) 0
          (l.length - 1)).1).dropLast) := by
  rfl

lemma heapPop_core_length (l : List Edge) :
    (downLoop l.length (hswap l 0 (l.length - 1)) 0
      (l.length - 1)).1.length = l.length := by
  rw [downLoop_fst_length, length_hswap]

lemma heapPop_core_last (l : List Edge) (h : 0 < l.length) :
    (downLoop l.length (hswap l 0 (l.length - 1)) 0
      (l.length - 1)).1.getD (l.length - 1) dummyE = l.getD 0 dummyE := by
  by_cases h1 : l.length = 1
  · rw [h1]
    rw [show (1 : Nat) - 1 = 0 from rfl, hswap_self,
      downLoop_stay _ _ _ _ (Or.inl (by omega)) (by omega)]
  · have hswg : (hswap l 0 (l.length - 1)).getD (l.length - 1) dummyE =
        l.getD 0 dummyE := by
      unfold hswap
      exact getD_set_self _ _ _ (by rw [List.length_set]; omega)
    rw [downLoop_untouched _ _ _ _ _ (by rw [length_hswap]; omega)
      (Or.inl (by omega)) (le_refl _)]
    exact hswg

lemma heapPop_length (l : List Edge) :
    (heapPop l).2.length = l.length - 1 := by
  rw [heapPop_eq]
  rw [List.length_dropLast, heapPop_core_length]

lemma heapPop_fst (l : List Edge) (h : 0 < l.length) :
    (heapPop l).1 = l.getD 0 dummyE := by
  rw [heapPop_eq]
  show (downLoop l.length (hswap l 0 (l.length - 1)) 0
      (l.length - 1)).1.getLast?.getD dummyE = l.getD 0 dummyE
  rw [getLast?_getD, heapPop_core_length]
  exact heapPop_core_last l h

lemma heapPop_perm (l : List Edge) (h : 0 < l.length) :
    List.Perm ((heapPop l).1 :: (heapPop l).2) l := by
  have hcl := heapPop_core_length l
  have hne : (downLoop l.length (hswap l 0 (l.length - 1)) 0
      (l.length - 1)).1 ≠ [] := by
    intro hc
    rw [hc] at hcl
    simp at hcl
    omega
  have hfst : (heapPop l).1 =
      (downLoop l.length (hswap l 0 (l.length - 1)) 0
        (l.length - 1)).1.getLast hne := by
    rw [heapPop_eq]
    show (downLoop l.length (hswap l 0 (l.length - 1)) 0
        (l.length - 1)).1.getLast?.getD dummyE = _
    rw [List.getLast?_eq_getLast _ hne]
    rfl
  have hsnd : (heapPop l).2 =
      (downLoop l.length (hswap l 0 (l.length - 1)) 0
        (l.length - 1)).1.dropLast := by
    rw [heapPop_eq]
  have hjoin : (heapPop l).2 ++ [(heapPop l).1] =
      (downLoop l.length (hswap l 0 (l.length - 1)) 0
        (l.length - 1)).1 := by
    rw [hfst, hsnd]
    exact List.dropLast_append_getLast hne
  have hperm1 : List.Perm ((heapPop l).1 :: (heapPop l).2)
      ((heapPop l).2 ++ [(heapPop l).1]) :=
    (List.perm_append_singleton _ _).symm
  rw [hjoin] at hperm1
  refine hperm1.trans (List.Perm.trans ?_ (perm_hswap l 0 (l.length - 1)
    (by omega) (by omega)))
  exact downLoop_perm _ _ _ _ (by rw [length_hswap]; omega) (by omega)

lemma heapPop_heap (l : List Edge) (hheap : HeapN l l.length) :
    HeapN (heapPop l).2 (l.length - 1) := by
  by_cases h0 : l.length ≤ 1
  · intro c hc0 hcn _
    omega
  · have hlow : HeapFromN (downLoop l.length (hswap l 0 (l.length - 1)) 0
        (l.length - 1)).1 (l.length - 1) 0 := by
      apply downLoop_spec _ _ _ _ _ (by rw [length_hswap]; omega) (by omega)
      refine ⟨le_refl _, by omega, ?_, ?_⟩
      · intro c hc0 hcn _ hq0
        have hcne : c ≠ l.length - 1 := by omega
        have hqne : (c - 1) / 2 ≠ l.length - 1 := by omega
        unfold hkey
        rw [hw_hswap _ _ _ _ (by omega) (by omega),
          hw_hswap _ _ _ _ (by omega) (by omega)]
        rw [if_neg hqne, if_neg hq0, if_neg hcne, if_neg (by omega)]
        exact hheap c hc0 (by omega) (by omega)
      · intro hlt
        omega
    intro c hc0 hcn hcq
    have hkk : ∀ k, k < l.length - 1 →
        hkey (heapPop l).2 k =
          hkey (downLoop l.length (hswap l 0 (l.length - 1)) 0
            (l.length - 1)).1 k := by
      intro k hk
      rw [heapPop_eq]
      show hkey ((downLoop l.length (hswap l 0 (l.length - 1)) 0
        (l.length - 1)).1.dropLast) k = _
      unfold hkey hw
      rw [getD_dropLast _ _ (by rw [heapPop_core_length]; omega)]
    rw [hkk c hcn, hkk _ (by omega)]
    exact hlow c hc0 hcn hcq

lemma initLoop_spec : ∀ (m : Nat) (l : List Edge) (n : Nat),
    n ≤ l.length → 2 * m ≤ n → HeapFromN l n m →
    HeapFromN (initLoop n m l) n 0 ∧ (initLoop n m l).length = l.length ∧
      List.Perm (initLoop n m l) l := by
  intro m
  induction m with
  | zero =>
    intro l n _ _ hh
    exact ⟨hh, rfl, List.Perm.refl _⟩
  | succ m ih =>
    intro l n hn hm hh
    have hstep : initLoop n (m + 1) l = initLoop n m (downLoop n l m n).1 :=
      rfl
    rw [hstep]
    have hdown : HeapFromN (downLoop n l m n).1 n m := by
      apply downLoop_spec _ _ _ _ _ hn (by omega)
      refine ⟨le_refl _, by omega, ?_, ?_⟩
      · intro c hc0 hcn hq hqm
        exact hh c hc0 hcn (by omega)
      · intro hlt
        omega
    have hlen : (downLoop n l m n).1.length = l.length :=
      downLoop_fst_length _ _ _ _
    obtain ⟨ha, hb, hc⟩ := ih (downLoop n l m n).1 n (by omega) (by omega)
      hdown
    refine ⟨ha, by rw [hb, hlen], ?_⟩
    exact hc.trans (downLoop_perm _ _ _ _ hn (Or.inl (by omega)))

lemma heapInit_heap (l : List Edge) : HeapN (heapInit l) l.length := by
  refine (initLoop_spec (l.length / 2) l l.length (le_refl _) (by omega)
    ?_).1
  intro c hc0 hcn hq
  omega

lemma heapInit_length (l : List Edge) : (heapInit l).length = l.length := by
  refine (initLoop_spec (l.length / 2) l l.length (le_refl _) (by omega)
    ?_).2.1
  intro c hc0 hcn hq
  omega

lemma heapInit_perm (l : List Edge) : List.Perm (heapInit l) l := by
  refine (initLoop_spec (l.length / 2) l l.length (le_refl _) (by omega)
    ?_).2.2
  intro c hc0 hcn hq
  omega

lemma findIdx?_some_facts (l : List Edge) (p : Edge → Bool) (i : Nat)
    (h : l.findIdx? p = some i) :
    i < l.length ∧ p (l.getD i dummyE) = true := by
  obtain ⟨hlt, heq⟩ := List.findIdx?_eq_some_iff_findIdx_eq.mp h
  subst heq
  refine ⟨hlt, ?_⟩
  have h3 := @List.findIdx_getElem _ p l hlt
  rw [List.getD_eq_getElem _ _ hlt]
  exact h3

lemma heapUpdate_none (l : List Edge) (v w : Int)
    (h : l.findIdx? (fun e => e.dst = v) = none) :
    heapUpdate l v w = l := by
  unfold heapUpdate
  rw [h]

lemma heapUpdate_some (l : List Edge) (v w : Int) (i : Nat)
    (h : l.findIdx? (fun e => e.dst = v) = some i) :
    heapUpdate l v w =
      heapFix (l.set i ⟨(l.getD i dummyE).dst, w⟩) i := by
  unfold heapUpdate
  rw [h]

lemma heapUpdate_length (l : List Edge) (v w : Int) :
    (heapUpdate l v w).length = l.length := by
  cases hf : l.findIdx? (fun e => e.dst = v) with
  | none => rw [heapUpdate_none _ _ _ hf]
  | some i =>
    rw [heapUpdate_some _ _ _ _ hf, heapFix_length, List.length_set]

lemma heapUpdate_heap (l : List Edge) (v w : Int)
    (hheap : HeapN l l.length) :
    HeapN (heapUpdate l v w) l.length := by
  cases hf : l.findIdx? (fun e => e.dst = v) with
  | none =>
    rw [heapUpdate_none _ _ _ hf]
    exact hheap
  | some i =>
    obtain ⟨hlt, _⟩ := findIdx?_some_facts _ _ _ hf
    rw [heapUpdate_some _ _ _ _ hf]
    exact heapFix_spec l i _ hlt hheap

lemma heapUpdate_multiset (l : List Edge) (v w : Int) :
    heapUpdate l v w = l ∨
    ∃ i, i < l.length ∧ (l.getD i dummyE).dst = v ∧
      (heapUpdate l v w : Multiset Edge) + {l.getD i dummyE} =
        (l : Multiset Edge) + {(⟨v, w⟩ : Edge)} := by
  cases hf : l.findIdx? (fun e => e.dst = v) with
  | none =>
    exact Or.inl (heapUpdate_none _ _ _ hf)
  | some i =>
    obtain ⟨hlt, hp⟩ := findIdx?_some_facts _ _ _ hf
    have hdst : (l.getD i dummyE).dst = v := by
      simpa using hp
    refine Or.inr ⟨i, hlt, hdst, ?_⟩
    rw [heapUpdate_some _ _ _ _ hf]
    have hperm := heapFix_perm (l.set i ⟨(l.getD i dummyE).dst, w⟩) i
      (by rw [List.length_set]; exact hlt)
    have hms := Multiset.coe_eq_coe.mpr hperm
    rw [hms, hdst]
    exact ms_set l i _ hlt

/-! ### Walks and the relaxation fold -/

lemma any_edge_of_mem (g : Graph) (x : GVertex) (hx : x ∈ g.vertices)
    (e : Edge) (he : e ∈ x.outgoing) :
    g.vertices.any
      (fun y => decide (y.vid = x.vid) && decide (e ∈ y.outgoing)) = true :=
  List.any_eq_true.mpr ⟨x, hx, by simp [he]⟩

lemma walkOK_single (g : Graph) (u : Int) (e : Edge)
    (h : g.vertices.any
      (fun x => decide (x.vid = u) && decide (e ∈ x.outgoing)) = true) :
    walkOK g u e.dst [e] = true := by
  simp [walkOK, h]

lemma walkOK_append (g : Graph) : ∀ (es : List Edge) (u v : Int) (e : Edge),
    walkOK g u v es = true →
    g.vertices.any
      (fun x => decide (x.vid = v) && decide (e ∈ x.outgoing)) = true →
    walkOK g u e.dst (es ++ [e]) = true := by
  intro es
  induction es with
  | nil =>
    intro u v e hwalk hany
    have huv : u = v := by simpa [walkOK] using hwalk
    subst huv
    exact walkOK_single g u e hany
  | cons e0 es ih =>
    intro u v e hwalk hany
    rw [List.cons_append]
    unfold walkOK at hwalk ⊢
    rw [Bool.and_eq_true] at hwalk ⊢
    exact ⟨hwalk.1, ih _ _ _ hwalk.2 hany⟩

lemma outEdges_mem (g : Graph) (cv : Int) (e : Edge)
    (he : e ∈ outEdges g cv) :
    ∃ x ∈ g.vertices, x.vid = cv ∧ e ∈ x.outgoing := by
  unfold outEdges at he
  cases hf : g.vertices.find? (fun x => x.vid = cv) with
  | none =>
    rw [hf] at he
    simp at he
  | some x =>
    rw [hf] at he
    refine ⟨x, List.mem_of_find?_eq_some hf, ?_, he⟩
    have := List.find?_some hf
    simpa using this

lemma foldl_inv {α : Type} (f : α → Edge → α) (Q : α → Prop) :
    ∀ (es : List Edge) (st : α), Q st →
    (∀ st e, e ∈ es → Q st → Q (f st e)) → Q (es.foldl f st) := by
  intro es
  induction es with
  | nil =>
    intro st hst _
    exact hst
  | cons e es ih =>
    intro st hst hcl
    exact ih (f st e) (hcl st e (List.mem_cons_self e es) hst)
      (fun st' e' he' => hcl st' e' (List.mem_cons_of_mem _ he'))

lemma relaxOne_fst_length (src cv : Int) (cw : Int)
    (st : List Edge × (Int → Path)) (e : Edge) :
    (relaxOne src cv cw st e).1.length = st.1.length := by
  unfold relaxOne
  by_cases h1 : e.dst = src
  · rw [if_pos h1]
  · rw [if_neg h1]
    by_cases h2 : (st.2 e.dst).Distance < 0 ∨
        cw + e.weight < (st.2 e.dst).Distance
    · rw [if_pos h2]
      exact heapUpdate_length _ _ _
    · rw [if_neg h2]

lemma foldl_relax_length (src cv : Int) (cw : Int) (es : List Edge)
    (st : List Edge × (Int → Path)) :
    (es.foldl (relaxOne src cv cw) st).1.length = st.1.length := by
  have h := foldl_inv (relaxOne src cv cw)
    (fun s => s.1.length = st.1.length) es st rfl
    (fun s e _ hs => by
      show (relaxOne src cv cw s e).1.length = st.1.length
      rw [relaxOne_fst_length]
      exact hs)
  exact h

lemma mem_of_heapUpdate (l : List Edge) (v w : Int) (x : Edge)
    (hx : x ∈ heapUpdate l v w) : x ∈ l ∨ x = ⟨v, w⟩ := by
  rcases heapUpdate_multiset l v w with h | ⟨i, _, _, hms⟩
  · rw [h] at hx
    exact Or.inl hx
  · have hx1 : x ∈ (heapUpdate l v w : Multiset Edge) +
        {l.getD i dummyE} := by
      rw [Multiset.mem_add]
      exact Or.inl (Multiset.mem_coe.mpr hx)
    rw [hms, Multiset.mem_add] at hx1
    rcases hx1 with hx1 | hx1
    · exact Or.inl (Multiset.mem_coe.mp hx1)
    · exact Or.inr (Multiset.mem_singleton.mp hx1)

lemma relaxOne_mem (src cv : Int) (cw : Int)
    (st : List Edge × (Int → Path)) (e : Edge) (x : Edge)
    (hx : x ∈ (relaxOne src cv cw st e).1) :
    x ∈ st.1 ∨ (x.dst = e.dst ∧ e.dst ≠ src) := by
  unfold relaxOne at hx
  by_cases h1 : e.dst = src
  · rw [if_pos h1] at hx
    exact Or.inl hx
  · rw [if_neg h1] at hx
    by_cases h2 : (st.2 e.dst).Distance < 0 ∨
        cw + e.weight < (st.2 e.dst).Distance
    · rw [if_pos h2] at hx
      rcases mem_of_heapUpdate _ _ _ _ hx with h | h
      · exact Or.inl h
      · exact Or.inr ⟨by rw [h], h1⟩
    · rw [if_neg h2] at hx
      exact Or.inl hx

lemma reach_step (g : Graph) (src cv : Int)
    (hcv : cv = src ∨ Reach g src cv) (e : Edge)
    (he : e ∈ outEdges g cv) : Reach g src e.dst := by
  obtain ⟨x, hx, hvid, hmemx⟩ := outEdges_mem g cv e he
  have hany : g.vertices.any
      (fun y => decide (y.vid = cv) && decide (e ∈ y.outgoing)) = true := by
    rw [← hvid]
    exact any_edge_of_mem g x hx e hmemx
  rcases hcv with hcv | ⟨es, hes⟩
  · subst hcv
    exact ⟨[e], walkOK_single g cv e hany⟩
  · exact ⟨es ++ [e], walkOK_append g es src cv e hes hany⟩

lemma fold_relax_reach (g : Graph) (src cv : Int) (cw : Int)
    (hcv : cv = src ∨ Reach g src cv)
    (st : List Edge × (Int → Path))
    (hst : ∀ he ∈ st.1, 0 ≤ he.weight →
      he.dst = src ∨ Reach g src he.dst) :
    ∀ he ∈ ((outEdges g cv).foldl (relaxOne src cv cw) st).1,
      0 ≤ he.weight → he.dst = src ∨ Reach g src he.dst := by
  refine foldl_inv (relaxOne src cv cw)
    (fun s => ∀ he ∈ s.1, 0 ≤ he.weight →
      he.dst = src ∨ Reach g src he.dst)
    (outEdges g cv) st hst ?_
  intro s e hmem hs x hx hxw
  rcases relaxOne_mem src cv cw s e x hx with h | ⟨hdst, _⟩
  · exact hs x h hxw
  · rw [hdst]
    exact Or.inr (reach_step g src cv hcv e hmem)

lemma shortestPathsLoop_reach (g : Graph) (src : Int) :
    ∀ (fuel : Nat) (h : List Edge) (paths : Int → Path)
      (res : List (Int × Path)), fuel ≤ h.length →
      (∀ he ∈ h, 0 ≤ he.weight → he.dst = src ∨ Reach g src he.dst) →
      (∀ vp ∈ res, vp.1 ≠ src ∧ Reach g src vp.1) →
      ∀ vp ∈ dijkstraLoop g src (fun s v p => (s ++ [(v, p)], true))
        fuel h paths res, vp.1 ≠ src ∧ Reach g src vp.1 := by
  intro fuel
  induction fuel with
  | zero =>
    intro h paths res _ _ hres
    simpa [dijkstraLoop] using hres
  | succ fuel ih =>
    intro h paths res hfu hheap hres
    have hpos : 0 < h.length := by omega
    have hrootmem : (heapPop h).1 ∈ h :=
      (heapPop_perm h hpos).mem_iff.mp (List.mem_cons_self _ _)
    by_cases hw0 : (heapPop h).1.weight < 0
    · simpa [dijkstraLoop, hw0] using hres
    · have hrootR : (heapPop h).1.dst = src ∨
          Reach g src (heapPop h).1.dst :=
        hheap _ hrootmem (by omega)
      have hsub : ∀ he ∈ (heapPop h).2, 0 ≤ he.weight →
          he.dst = src ∨ Reach g src he.dst := by
        intro he hmem hw
        exact hheap he ((heapPop_perm h hpos).mem_iff.mp
          (List.mem_cons_of_mem _ hmem)) hw
      have hfold := fold_relax_reach g src (heapPop h).1.dst
        (heapPop h).1.weight hrootR ((heapPop h).2, paths) hsub
      have hlen2 : fuel ≤ (((outEdges g (heapPop h).1.dst).foldl
          (relaxOne src (heapPop h).1.dst (heapPop h).1.weight)
          ((heapPop h).2, paths)).1).length := by
        rw [foldl_relax_length]
        show fuel ≤ (heapPop h).2.length
        rw [heapPop_length]
        omega
      by_cases hd : (heapPop h).1.dst = src
      · rw [hd] at hfold hlen2
        simp only [dijkstraLoop, hw0, if_false, hd, ne_eq, not_true_eq_false,
          if_true, ite_false, ite_true, Bool.true_eq_false]
        exact ih _ _ _ hlen2 hfold hres
      · simp only [dijkstraLoop, hw0, if_false, ne_eq, hd, not_false_eq_true,
          if_true, ite_true, ite_false, Bool.true_eq_false]
        apply ih _ _ _ hlen2 hfold
        intro vp hvp
        rcases List.mem_append.mp hvp with hvp | hvp
        · exact hres vp hvp
        · rcases List.mem_cons.mp hvp with hvp | hvp
          · subst hvp
            rcases hrootR with hr | hr
            · exact absurd hr hd
            · exact ⟨hd, hr⟩
          · simp at hvp

lemma seed_reach (g : Graph) (src : Int) :
    ∀ he ∈ g.vertices.map
      (fun v => Edge.mk v.vid (if v.vid = src then 0 else -1)),
      0 ≤ he.weight → he.dst = src ∨ Reach g src he.dst := by
  intro he hmem hw
  obtain ⟨v, _, hv⟩ := List.mem_map.mp hmem
  by_cases hvs : v.vid = src
  · left
    rw [← hv]
    exact hvs
  · rw [← hv] at hw
    simp [hvs] at hw

lemma shortestPaths_reach (g : Graph) (src : Int) :
    ∀ vp ∈ g.ShortestPaths src, vp.1 ≠ src ∧ Reach g src vp.1 := by
  unfold Graph.ShortestPaths Graph.dijkstra
  apply shortestPathsLoop_reach g src _ _ _ []
  · rw [heapInit_length, List.length_map]
  · intro he hmem hw
    exact seed_reach g src he ((heapInit_perm _).mem_iff.mp hmem) hw
  · intro vp hvp
    simp at hvp

/-- C10: the mapping returned by `ShortestPaths(src)` contains only
non-source vertices that are reachable from the source (so the source is
never a key — its lookup is `none` — and unreachable vertices are entirely
absent), and `ShortestPath(src, src)` returns the empty path carrying the
sentinel distance −1. -/
theorem result_key_characterization (g : Graph) (src : Int) :
    (∀ vp ∈ g.ShortestPaths src, vp.1 ≠ src ∧ Reach g src vp.1) ∧
    (g.ShortestPaths src).lookup src = none ∧
    g.ShortestPath src src = ⟨[]⟩ ∧
    (g.ShortestPath src src).Distance = -1 := by
  have h2 : g.ShortestPath src src = ⟨[]⟩ := by
    unfold Graph.ShortestPath Graph.dijkstra
    exact shortestPathLoop_self_const g src _ _ _ _
  refine ⟨shortestPaths_reach g src, ?_, h2, ?_⟩
  · apply lookup_eq_none_of_not_mem
    unfold Graph.ShortestPaths Graph.dijkstra
    exact shortestPathsLoop_not_src g src _ _ _ [] (by simp)
  · rw [h2]
    rfl

/-- Witness for C10 on a concrete graph: vertex 3 is a key of
`ShortestPaths 1` on the six-vertex example, and the theorem yields that it
is not the source and is reachable; the source-side conclusions are checked
at the same instance. -/
theorem result_key_characterization_witness :
    ((3 : Int) ≠ 1 ∧ Reach exampleGraphC2 1 3) ∧
    (exampleGraphC2.ShortestPaths 1).lookup 1 = none ∧
    exampleGraphC2.ShortestPath 1 1 = ⟨[]⟩ := by
  have h : (3 : Int) ≠ 1 ∧ Reach exampleGraphC2 1 3 :=
    (result_key_characterization exampleGraphC2 1).1
      (3, ⟨[⟨3, 1⟩]⟩) (by decide)
  exact ⟨h, (result_key_characterization exampleGraphC2 1).2.1,
    (result_key_characterization exampleGraphC2 1).2.2.1⟩

/-! ### Facts about keys, walks, `heapUpdate` under distinct ids -/

lemma keyv_of_nonneg (w : Int) (h : 0 ≤ w) : keyv w = (w : WithTop Int) := by
  unfold keyv
  rw [if_neg (by omega)]

lemma keyv_of_neg (w : Int) (h : w < 0) : keyv w = ⊤ := by
  unfold keyv
  rw [if_pos h]

lemma le_of_keyv_le (a b : Int) (ha : 0 ≤ a) (hb : 0 ≤ b)
    (h : keyv a ≤ keyv b) : a ≤ b := by
  rw [keyv_of_nonneg a ha, keyv_of_nonneg b hb] at h
  exact WithTop.coe_le_coe.mp h

lemma neg_of_keyv_top_le (w : Int) (h : (⊤ : WithTop Int) ≤ keyv w) :
    w < 0 := by
  by_contra hc
  rw [keyv_of_nonneg w (by omega)] at h
  exact WithTop.coe_ne_top (top_le_iff.mp h)

lemma root_min_mem (l : List Edge) (hheap : HeapN l l.length) :
    ∀ he ∈ l, keyv (l.getD 0 dummyE).weight ≤ keyv he.weight := by
  intro he hmem
  obtain ⟨i, hi, heq⟩ := List.mem_iff_getElem.mp hmem
  have h1 := heapN_root_min l l.length hheap i hi
  unfold hkey hw at h1
  rw [List.getD_eq_getElem _ _ hi, heq] at h1
  exact h1

lemma walkSum_cons (e : Edge) (es : List Edge) :
    walkSum (e :: es) = e.weight + walkSum es := by
  unfold walkSum
  rw [List.map_cons, List.sum_cons]

lemma walkSum_append1 (es : List Edge) (e : Edge) :
    walkSum (es ++ [e]) = walkSum es + e.weight := by
  unfold walkSum
  rw [List.map_append, List.sum_append]
  simp

lemma walkOK_cons_head (g : Graph) (u v : Int) (e : Edge) (es : List Edge)
    (h : walkOK g u v (e :: es) = true) :
    (∃ x ∈ g.vertices, x.vid = u ∧ e ∈ x.outgoing) ∧
    walkOK g e.dst v es = true := by
  unfold walkOK at h
  rw [Bool.and_eq_true] at h
  refine ⟨?_, h.2⟩
  obtain ⟨x, hx, hpx⟩ := List.any_eq_true.mp h.1
  simp at hpx
  exact ⟨x, hx, hpx.1, hpx.2⟩

lemma walkOK_nil_eq (g : Graph) (u v : Int)
    (h : walkOK g u v [] = true) : u = v := by
  simpa [walkOK] using h

lemma walkSum_nonneg (g : Graph) (hnn : nonnegWeights g) :
    ∀ (es : List Edge) (u v : Int), walkOK g u v es = true →
      0 ≤ walkSum es := by
  intro es
  induction es with
  | nil =>
    intro u v _
    simp [walkSum]
  | cons e es ih =>
    intro u v h
    obtain ⟨⟨x, hx, _, hex⟩, h2⟩ := walkOK_cons_head g u v e es h
    have h3 := hnn x hx e hex
    have h4 := ih _ _ h2
    rw [walkSum_cons]
    omega

lemma outEdges_eq (g : Graph) (hnd : nodupIds g) (x : GVertex)
    (hx : x ∈ g.vertices) : outEdges g x.vid = x.outgoing := by
  unfold outEdges
  cases hf : g.vertices.find? (fun y => y.vid = x.vid) with
  | none =>
    exact absurd (by simp : (fun (y : GVertex) => decide (y.vid = x.vid)) x
      = true) (by simpa using List.find?_eq_none.mp hf x hx)
  | some y =>
    have hy : y.vid = x.vid := by simpa using List.find?_some hf
    rw [keyed_unique hnd y (List.mem_of_find?_eq_some hf) x hx hy]

lemma outEdges_nonneg (g : Graph) (hnn : nonnegWeights g) (v : Int)
    (e : Edge) (he : e ∈ outEdges g v) : 0 ≤ e.weight := by
  obtain ⟨x, hx, _, hex⟩ := outEdges_mem g v e he
  exact hnn x hx e hex

lemma dst_unique (l : List Edge) (hnod : (l.map Edge.dst).Nodup) :
    ∀ a ∈ l, ∀ b ∈ l, a.dst = b.dst → a = b := by
  intro a ha b hb h
  exact List.inj_on_of_nodup_map hnod ha hb h

lemma old_entry_facts (l : List Edge) (y : Int) (i : Nat)
    (hf : l.findIdx? (fun e => e.dst = y) = some i) :
    l.getD i dummyE ∈ l ∧ (l.getD i dummyE).dst = y := by
  obtain ⟨hi, hp⟩ := findIdx?_some_facts _ _ _ hf
  refine ⟨?_, by simpa using hp⟩
  rw [List.getD_eq_getElem _ _ hi]
  exact List.getElem_mem hi

lemma heapUpdate_ms_some (l : List Edge) (y w : Int) (i : Nat)
    (hf : l.findIdx? (fun e => e.dst = y) = some i) :
    (heapUpdate l y w : Multiset Edge) + {l.getD i dummyE} =
      (l : Multiset Edge) + {(⟨y, w⟩ : Edge)} := by
  obtain ⟨hi, _⟩ := findIdx?_some_facts _ _ _ hf
  have hdst := (old_entry_facts l y i hf).2
  rw [heapUpdate_some _ _ _ _ hf]
  have hms := Multiset.coe_eq_coe.mpr
    (heapFix_perm (l.set i ⟨(l.getD i dummyE).dst, w⟩) i
      (by rw [List.length_set]; exact hi))
  rw [hms, hdst]
  exact ms_set l i _ hi

lemma heapUpdate_count (l : List Edge) (y w : Int) (i : Nat)
    (hf : l.findIdx? (fun e => e.dst = y) = some i) (x : Edge) :
    Multiset.count x (heapUpdate l y w : Multiset Edge) +
      Multiset.count x ({l.getD i dummyE} : Multiset Edge) =
    Multiset.count x (l : Multiset Edge) +
      Multiset.count x ({(⟨y, w⟩ : Edge)} : Multiset Edge) := by
  rw [← Multiset.count_add, ← Multiset.count_add, heapUpdate_ms_some l y w i hf]

lemma heapUpdate_new_mem (l : List Edge) (y w : Int) (i : Nat)
    (hf : l.findIdx? (fun e => e.dst = y) = some i) :
    (⟨y, w⟩ : Edge) ∈ heapUpdate l y w := by
  have hc := heapUpdate_count l y w i hf ⟨y, w⟩
  have hold := old_entry_facts l y i hf
  rw [← Multiset.mem_coe, ← Multiset.count_pos]
  rw [Multiset.count_singleton, Multiset.count_singleton] at hc
  by_cases heq : (⟨y, w⟩ : Edge) = l.getD i dummyE
  · rw [if_pos heq, if_pos rfl] at hc
    have h1 : 0 < Multiset.count (⟨y, w⟩ : Edge) (l : Multiset Edge) := by
      rw [Multiset.count_pos, Multiset.mem_coe, heq]
      exact hold.1
    omega
  · rw [if_neg heq, if_pos rfl] at hc
    omega

lemma heapUpdate_mem_preserved (l : List Edge) (y w : Int) (i : Nat)
    (hf : l.findIdx? (fun e => e.dst = y) = some i) (he : Edge)
    (hmem : he ∈ l) (hne : he.dst ≠ y) : he ∈ heapUpdate l y w := by
  have hc := heapUpdate_count l y w i hf he
  have hold := old_entry_facts l y i hf
  rw [Multiset.count_singleton, Multiset.count_singleton] at hc
  rw [if_neg (fun h => hne (by rw [h, hold.2])),
    if_neg (fun h => hne (by rw [h]))] at hc
  rw [← Multiset.mem_coe, ← Multiset.count_pos]
  have h1 : 0 < Multiset.count he (l : Multiset Edge) := by
    rw [Multiset.count_pos, Multiset.mem_coe]
    exact hmem
  omega

lemma heapUpdate_mem_cases (l : List Edge) (y w : Int) (i : Nat)
    (hf : l.findIdx? (fun e => e.dst = y) = some i)
    (hnod : (l.map Edge.dst).Nodup) (x : Edge)
    (hx : x ∈ heapUpdate l y w) :
    x = ⟨y, w⟩ ∨ (x ∈ l ∧ x.dst ≠ y) := by
  have hold := old_entry_facts l y i hf
  by_cases hxn : x = ⟨y, w⟩
  · exact Or.inl hxn
  · right
    have hc := heapUpdate_count l y w i hf x
    rw [Multiset.count_singleton, Multiset.count_singleton,
      if_neg hxn] at hc
    have hpos : 0 < Multiset.count x (heapUpdate l y w : Multiset Edge) := by
      rw [Multiset.count_pos, Multiset.mem_coe]
      exact hx
    have hmem : x ∈ l := by
      rw [← Multiset.mem_coe, ← Multiset.count_pos]
      by_cases heq : x = l.getD i dummyE
      · rw [if_pos heq] at hc
        omega
      · rw [if_neg heq] at hc
        omega
    refine ⟨hmem, ?_⟩
    intro hdst
    have hxo : x = l.getD i dummyE :=
      dst_unique l hnod x hmem _ hold.1 (by rw [hdst, hold.2])
    rw [if_pos hxo] at hc
    have hl1 : Multiset.count x (l : Multiset Edge) = 1 := by
      rw [Multiset.coe_count]
      exact List.count_eq_one_of_mem (hnod.of_map Edge.dst) hmem
    omega

lemma set_getD_self_int (l : List Int) (i : Nat) :
    l.set i (l.getD i 0) = l := by
  by_cases h : i < l.length
  · rw [List.getD_eq_getElem _ _ h, List.set_eq_take_cons_drop _ h,
      ← List.drop_eq_getElem_cons h, List.take_append_drop]
  · rw [List.set_eq_of_length_le (by omega)]

lemma heapUpdate_dst_perm (l : List Edge) (y w : Int) (i : Nat)
    (hf : l.findIdx? (fun e => e.dst = y) = some i) :
    List.Perm ((heapUpdate l y w).map Edge.dst) (l.map Edge.dst) := by
  obtain ⟨hi, _⟩ := findIdx?_some_facts _ _ _ hf
  rw [heapUpdate_some _ _ _ _ hf]
  refine ((heapFix_perm _ i (by rw [List.length_set]; exact hi)).map
    Edge.dst).trans ?_
  rw [List.map_set]
  have h1 : ((⟨(l.getD i dummyE).dst, w⟩ : Edge)).dst =
      (l.map Edge.dst).getD i 0 := by
    rw [List.getD_eq_getElem _ _ hi,
      List.getD_eq_getElem _ _ (by rw [List.length_map]; exact hi)]
    simp
  rw [h1, set_getD_self_int]

/-! ### The crossing argument -/

lemma crossing_bound (g : Graph) (src : Int) (hnn : nonnegWeights g)
    (pops : List (Int × Int)) (h : List Edge)
    (hP0 : ∀ q ∈ pops, 0 ≤ q.2)
    (hsk : ∀ q ∈ pops, q.1 = src → q.2 = 0)
    (hsrc : src ∈ pops.map Prod.fst)
    (hrel : ∀ q ∈ pops, ∀ x ∈ g.vertices, x.vid = q.1 →
      ∀ e ∈ x.outgoing, e.dst ≠ src →
      e.dst ∈ g.vertices.map GVertex.vid →
      TBound pops h e.dst (q.2 + e.weight)) :
    ∀ (es : List Edge) (u ku v' : Int),
      walkOK g u v' es = true → (u, ku) ∈ pops →
      v' ∈ g.vertices.map GVertex.vid → v' ∉ pops.map Prod.fst →
      ∃ he ∈ h, 0 ≤ he.weight ∧ he.weight ≤ ku + walkSum es := by
  intro es
  induction es with
  | nil =>
    intro u ku v' hwalk hmemP _ hnotin
    exact absurd (List.mem_map.mpr ⟨(u, ku), hmemP,
      by rw [walkOK_nil_eq g u v' hwalk]⟩) hnotin
  | cons e es ih =>
    intro u ku v' hwalk hmemP hv'id hnotin
    obtain ⟨⟨x, hx, hvid, hex⟩, h2⟩ := walkOK_cons_head g u v' e es hwalk
    have hwsum : 0 ≤ walkSum es := walkSum_nonneg g hnn es _ _ h2
    have hwe : 0 ≤ e.weight := hnn x hx e hex
    have hku : 0 ≤ ku := hP0 (u, ku) hmemP
    by_cases hds : e.dst = src
    · -- the walk revisits the source, which was popped with key 0
      obtain ⟨qs, hqs, hqs1⟩ := List.mem_map.mp hsrc
      have hqs0 : qs.2 = 0 := hsk qs hqs hqs1
      have hsrcP : (src, (0 : Int)) ∈ pops := by
        rw [← hqs1, ← hqs0]
        exact hqs
      have h2s : walkOK g src v' es = true := by
        rw [← hds]
        exact h2
      obtain ⟨he', hhe', hw1', hw2'⟩ := ih src 0 v' h2s hsrcP hv'id hnotin
      refine ⟨he', hhe', hw1', ?_⟩
      rw [walkSum_cons]
      omega
    · have hdid : e.dst ∈ g.vertices.map GVertex.vid := by
        cases es with
        | nil =>
          rw [walkOK_nil_eq g e.dst v' h2]
          exact hv'id
        | cons e' es' =>
          obtain ⟨⟨x', hx', hvid', _⟩, _⟩ :=
            walkOK_cons_head g e.dst v' e' es' h2
          exact List.mem_map.mpr ⟨x', hx', hvid'⟩
      have hT := hrel (u, ku) hmemP x hx hvid e hex hds hdid
      rcases hT with ⟨q, hq, hq1, hqb⟩ | ⟨he, hhe, _, hw1, hw2⟩
      · have hq' : (e.dst, q.2) ∈ pops := by
          rw [← hq1]
          exact hq
        obtain ⟨he', hhe', hw1', hw2'⟩ :=
          ih e.dst q.2 v' h2 hq' hv'id hnotin
        refine ⟨he', hhe', hw1', ?_⟩
        rw [walkSum_cons]
        omega
      · refine ⟨he, hhe, hw1, ?_⟩
        rw [walkSum_cons]
        omega

lemma Distance_of_ne_nil (p : Path) (h : p.edges ≠ []) :
    p.Distance = walkSum p.edges := by
  unfold Path.Distance walkSum
  rw [if_neg (by simpa [List.isEmpty_iff] using h)]

lemma Distance_nil : (Path.mk []).Distance = -1 := by
  rfl

lemma addEdge_fst_of_nonneg (p : Path) (e : Edge) (h : 0 ≤ e.weight) :
    (p.addEdge e).1 = ⟨p.edges ++ [e]⟩ := by
  unfold Path.addEdge
  rw [if_neg (by omega)]

/-- One relaxation step preserves the fold invariant, preserves every
`TBound` fact, and establishes the bound for the edge just processed. -/
lemma relax_step (g : Graph) (src : Int) (π0 : Int → Path)
    (P : List (Int × Int)) (v : Int) (k : Int) (dsts : List Int)
    (hnn : nonnegWeights g) (hdn : dsts.Nodup)
    (hvP : (v, k) ∈ P) (hk0 : 0 ≤ k)
    (hP0 : ∀ q ∈ P, 0 ≤ q.2) (hPk : ∀ q ∈ P, q.2 ≤ k)
    (hPsync : ∀ q ∈ P, q.1 ≠ src →
      (π0 q.1).edges ≠ [] ∧ walkSum (π0 q.1).edges = q.2)
    (hvk : v = src → k = 0)
    (hvwalk : v ≠ src → walkOK g src v (π0 v).edges = true)
    (hcover : ∀ y, y ∈ g.vertices.map GVertex.vid →
      y ∈ P.map Prod.fst ∨ y ∈ dsts)
    (st : List Edge × (Int → Path)) (e : Edge)
    (hB : RelaxBase g src π0 P dsts st) (he : e ∈ outEdges g v) :
    RelaxBase g src π0 P dsts (relaxOne src v k st e) ∧
    (∀ y b, TBound P st.1 y b → TBound P (relaxOne src v k st e).1 y b) ∧
    (e.dst ≠ src → e.dst ∈ g.vertices.map GVertex.vid →
      TBound P (relaxOne src v k st e).1 e.dst (k + e.weight)) := by
  have hwe : 0 ≤ e.weight := outEdges_nonneg g hnn v e he
  by_cases hzs : e.dst = src
  · have hre : relaxOne src v k st e = st := by
      unfold relaxOne
      rw [if_pos hzs]
    rw [hre]
    exact ⟨hB, fun y b hT => hT, fun hne _ => absurd hzs hne⟩
  · by_cases hC : (st.2 e.dst).Distance < 0 ∨
        k + e.weight < (st.2 e.dst).Distance
    · -- the relaxation fires
      have hre : relaxOne src v k st e =
          (heapUpdate st.1 e.dst (k + e.weight),
            fun x => if x = e.dst then ((st.2 v).addEdge e).1
              else st.2 x) := by
        simp only [relaxOne, if_neg hzs]
        rw [if_pos hC]
      -- the target cannot already be resolved
      have hzP : e.dst ∉ P.map Prod.fst := by
        intro hmem
        obtain ⟨q, hq, hq1⟩ := List.mem_map.mp hmem
        have hfr := hB.frozen q hq
        have hqs := hPsync q hq (by rw [hq1]; exact hzs)
        have hqd : (st.2 e.dst).Distance = q.2 := by
          rw [← hq1, hfr, Distance_of_ne_nil _ hqs.1, hqs.2]
        have hq0 := hP0 q hq
        have hqk := hPk q hq
        rw [hqd] at hC
        omega
      -- the new path is a correct walk of the right weight
      obtain ⟨x, hx, hxv, hxe⟩ := outEdges_mem g v e he
      have hany : g.vertices.any
          (fun y => decide (y.vid = v) && decide (e ∈ y.outgoing))
            = true := by
        rw [← hxv]
        exact any_edge_of_mem g x hx e hxe
      have hfp : ((st.2 v).addEdge e).1 = ⟨(st.2 v).edges ++ [e]⟩ :=
        addEdge_fst_of_nonneg _ _ hwe
      have hwOK : walkOK g src e.dst ((st.2 v).edges ++ [e]) = true := by
        by_cases hvs : v = src
        · have hnilp : st.2 v = ⟨[]⟩ := by
            rw [hvs]
            exact hB.src_path
          rw [hnilp, List.nil_append]
          rw [hvs] at hany
          exact walkOK_single g src e hany
        · have hfr : st.2 v = π0 v := hB.frozen (v, k) hvP
          rw [hfr]
          exact walkOK_append g _ _ _ _ (hvwalk hvs) hany
      have hsum : walkSum ((st.2 v).edges ++ [e]) = k + e.weight := by
        rw [walkSum_append1]
        by_cases hvs : v = src
        · have hnilp : st.2 v = ⟨[]⟩ := by
            rw [hvs]
            exact hB.src_path
          rw [hnilp, hvk hvs]
          simp [walkSum]
        · have hfr : st.2 v = π0 v := hB.frozen (v, k) hvP
          rw [hfr, (hPsync (v, k) hvP hvs).2]
      cases hfind : st.1.findIdx? (fun he0 => he0.dst = e.dst) with
      | none =>
        have hre2 : relaxOne src v k st e =
            (st.1, fun x => if x = e.dst then ((st.2 v).addEdge e).1
              else st.2 x) := by
          rw [hre, heapUpdate_none _ _ _ hfind]
        have hnone : ∀ x ∈ st.1, x.dst ≠ e.dst := by
          intro x0 hx0
          have := List.findIdx?_eq_none_iff.mp hfind x0 hx0
          simpa using this
        rw [hre2]
        refine ⟨⟨hB.heap, hB.dst_perm, ?_, ?_, ?_, ?_, hB.wLB⟩,
          fun y b hT => hT, ?_⟩
        · show (if src = e.dst then _ else st.2 src) = Path.mk []
          rw [if_neg (fun hcon => hzs hcon.symm)]
          exact hB.src_path
        · intro q hq
          show (if q.1 = e.dst then _ else st.2 q.1) = π0 q.1
          rw [if_neg (fun hcon => hzP (List.mem_map.mpr ⟨q, hq, hcon⟩))]
          exact hB.frozen q hq
        · intro he0 hm hw hd
          have hπw : ((st.1, fun x => if x = e.dst then
              ((st.2 v).addEdge e).1 else st.2 x) :
                List Edge × (Int → Path)).2 he0.dst = st.2 he0.dst := by
            show (if he0.dst = e.dst then ((st.2 v).addEdge e).1
              else st.2 he0.dst) = st.2 he0.dst
            rw [if_neg (hnone he0 hm)]
          rw [hπw]
          exact hB.syncPos he0 hm hw hd
        · intro he0 hm hw
          show (if he0.dst = e.dst then _ else st.2 he0.dst) = Path.mk []
          rw [if_neg (hnone he0 hm)]
          exact hB.syncNeg he0 hm hw
        · intro hne hid
          rcases hcover e.dst hid with hc1 | hc1
          · exact absurd hc1 hzP
          · obtain ⟨he0, hm0, hd0⟩ := List.mem_map.mp
              (hB.dst_perm.mem_iff.mpr hc1)
            exact absurd hd0 (hnone he0 hm0)
      | some i =>
        have hnodst : (st.1.map Edge.dst).Nodup :=
          (hB.dst_perm.nodup_iff).mpr hdn
        have hnewmem : (⟨e.dst, k + e.weight⟩ : Edge) ∈
            heapUpdate st.1 e.dst (k + e.weight) :=
          heapUpdate_new_mem _ _ _ _ hfind
        rw [hre]
        refine ⟨⟨?_, ?_, ?_, ?_, ?_, ?_, ?_⟩, ?_, ?_⟩
        · show HeapN (heapUpdate st.1 e.dst (k + e.weight))
            (heapUpdate st.1 e.dst (k + e.weight)).length
          rw [heapUpdate_length]
          exact heapUpdate_heap _ _ _ hB.heap
        · exact (heapUpdate_dst_perm _ _ _ _ hfind).trans hB.dst_perm
        · show (if src = e.dst then _ else st.2 src) = Path.mk []
          rw [if_neg (fun hcon => hzs hcon.symm)]
          exact hB.src_path
        · intro q hq
          show (if q.1 = e.dst then _ else st.2 q.1) = π0 q.1
          rw [if_neg (fun hcon => hzP (List.mem_map.mpr ⟨q, hq, hcon⟩))]
          exact hB.frozen q hq
        · intro he0 hm hw hd
          rcases heapUpdate_mem_cases _ _ _ _ hfind hnodst he0 hm with
            hcs | ⟨hm0, hd0⟩
          · subst hcs
            have hπz : ((heapUpdate st.1 e.dst (k + e.weight),
                fun x => if x = e.dst then ((st.2 v).addEdge e).1
                  else st.2 x) : List Edge × (Int → Path)).2
                    (⟨e.dst, k + e.weight⟩ : Edge).dst =
                  (⟨(st.2 v).edges ++ [e]⟩ : Path) := by
              show (if (⟨e.dst, k + e.weight⟩ : Edge).dst = e.dst then
                ((st.2 v).addEdge e).1 else
                  st.2 (⟨e.dst, k + e.weight⟩ : Edge).dst) = _
              rw [if_pos rfl, hfp]
            rw [hπz]
            refine ⟨by simp, ?_, ?_⟩
            · show walkOK g src (⟨e.dst, k + e.weight⟩ : Edge).dst
                ((⟨(st.2 v).edges ++ [e]⟩ : Path).edges) = true
              exact hwOK
            · show walkSum ((⟨(st.2 v).edges ++ [e]⟩ : Path).edges) =
                (⟨e.dst, k + e.weight⟩ : Edge).weight
              exact hsum
          · have hπw : ((heapUpdate st.1 e.dst (k + e.weight),
                fun x => if x = e.dst then ((st.2 v).addEdge e).1
                  else st.2 x) : List Edge × (Int → Path)).2 he0.dst =
                    st.2 he0.dst := by
              show (if he0.dst = e.dst then ((st.2 v).addEdge e).1
                else st.2 he0.dst) = st.2 he0.dst
              rw [if_neg hd0]
            rw [hπw]
            exact hB.syncPos he0 hm0 hw hd
        · intro he0 hm hw
          rcases heapUpdate_mem_cases _ _ _ _ hfind hnodst he0 hm with
            hcs | ⟨hm0, hd0⟩
          · rw [hcs] at hw
            exact absurd hw (by simp; omega)
          · show (if he0.dst = e.dst then _ else st.2 he0.dst) = Path.mk []
            rw [if_neg hd0]
            exact hB.syncNeg he0 hm0 hw
        · intro he0 hm hw q hq
          rcases heapUpdate_mem_cases _ _ _ _ hfind hnodst he0 hm with
            hcs | ⟨hm0, _⟩
          · rw [hcs]
            show q.2 ≤ k + e.weight
            have := hPk q hq
            omega
          · exact hB.wLB he0 hm0 hw q hq
        · -- every TBound fact survives the update
          intro y b hT
          rcases hT with ⟨q, hq, hq1, hqb⟩ | ⟨he1, hm1, hd1, hw1, hb1⟩
          · exact Or.inl ⟨q, hq, hq1, hqb⟩
          · by_cases hyz : y = e.dst
            · have hd1' : he1.dst = e.dst := by rw [hd1, hyz]
              have hole := old_entry_facts st.1 e.dst i hfind
              have he1o : he1 = st.1.getD i dummyE :=
                dst_unique st.1 hnodst he1 hm1 _ hole.1
                  (by rw [hd1', hole.2])
              have hDist : (st.2 e.dst).Distance = he1.weight := by
                have hs := hB.syncPos he1 hm1 hw1 (by rw [hd1']; exact hzs)
                rw [← hd1', Distance_of_ne_nil _ hs.1, hs.2.2]
              rw [hDist] at hC
              refine Or.inr ⟨⟨e.dst, k + e.weight⟩, hnewmem, ?_, ?_, ?_⟩
              · show (⟨e.dst, k + e.weight⟩ : Edge).dst = y
                rw [hyz]
              · show 0 ≤ k + e.weight
                omega
              · show k + e.weight ≤ b
                omega
            · refine Or.inr ⟨he1, ?_, hd1, hw1, hb1⟩
              exact heapUpdate_mem_preserved _ _ _ _ hfind he1 hm1
                (by rw [hd1]; exact hyz)
        · intro _ _
          refine Or.inr ⟨⟨e.dst, k + e.weight⟩, hnewmem, rfl, ?_, ?_⟩
          · show 0 ≤ k + e.weight
            omega
          · show k + e.weight ≤ k + e.weight
            omega
    · -- no relaxation: the entry for the target is already at least as good
      have hre : relaxOne src v k st e = st := by
        simp only [relaxOne, if_neg hzs]
        rw [if_neg hC]
      rw [hre]
      refine ⟨hB, fun y b hT => hT, ?_⟩
      intro hne hid
      rcases hcover e.dst hid with hc1 | hc1
      · obtain ⟨q, hq, hq1⟩ := List.mem_map.mp hc1
        refine Or.inl ⟨q, hq, hq1, ?_⟩
        have := hPk q hq
        omega
      · obtain ⟨he0, hm0, hd0⟩ := List.mem_map.mp
          (hB.dst_perm.mem_iff.mpr hc1)
        by_cases hw0 : he0.weight < 0
        · have hnil := hB.syncNeg he0 hm0 hw0
          rw [hd0] at hnil
          rw [hnil] at hC
          exact absurd (Or.inl (by rw [Distance_nil]; omega)) hC
        · have hs := hB.syncPos he0 hm0 (by omega) (by rw [hd0]; exact hne)
          have hDist : (st.2 e.dst).Distance = he0.weight := by
            rw [← hd0, Distance_of_ne_nil _ hs.1, hs.2.2]
          rw [hDist] at hC
          refine Or.inr ⟨he0, hm0, hd0, by omega, by omega⟩

/-- The whole relaxation fold preserves the invariant and the `TBound`
facts, and establishes the bound for every processed edge. -/
lemma fold_relax_master (g : Graph) (src : Int) (π0 : Int → Path)
    (P : List (Int × Int)) (v : Int) (k : Int) (dsts : List Int)
    (hnn : nonnegWeights g) (hdn : dsts.Nodup)
    (hvP : (v, k) ∈ P) (hk0 : 0 ≤ k)
    (hP0 : ∀ q ∈ P, 0 ≤ q.2) (hPk : ∀ q ∈ P, q.2 ≤ k)
    (hPsync : ∀ q ∈ P, q.1 ≠ src →
      (π0 q.1).edges ≠ [] ∧ walkSum (π0 q.1).edges = q.2)
    (hvk : v = src → k = 0)
    (hvwalk : v ≠ src → walkOK g src v (π0 v).edges = true)
    (hcover : ∀ y, y ∈ g.vertices.map GVertex.vid →
      y ∈ P.map Prod.fst ∨ y ∈ dsts) :
    ∀ (es : List Edge) (st : List Edge × (Int → Path)),
      (∀ e ∈ es, e ∈ outEdges g v) →
      RelaxBase g src π0 P dsts st →
      RelaxBase g src π0 P dsts (es.foldl (relaxOne src v k) st) ∧
      (∀ y b, TBound P st.1 y b →
        TBound P (es.foldl (relaxOne src v k) st).1 y b) ∧
      (∀ e ∈ es, e.dst ≠ src → e.dst ∈ g.vertices.map GVertex.vid →
        TBound P (es.foldl (relaxOne src v k) st).1 e.dst
          (k + e.weight)) := by
  intro es
  induction es with
  | nil =>
    intro st _ hB
    exact ⟨hB, fun y b hT => hT,
      fun e he => absurd he (List.not_mem_nil e)⟩
  | cons e es ih =>
    intro st hes hB
    obtain ⟨hB1, hstab1, hcond1⟩ := relax_step g src π0 P v k dsts hnn hdn
      hvP hk0 hP0 hPk hPsync hvk hvwalk hcover st e hB
      (hes e (List.mem_cons_self e es))
    obtain ⟨hBf, hstabf, hcondf⟩ := ih (relaxOne src v k st e)
      (fun e' he' => hes e' (List.mem_cons_of_mem _ he')) hB1
    refine ⟨?_, ?_, ?_⟩
    · rw [List.foldl_cons]
      exact hBf
    · intro y b hT
      rw [List.foldl_cons]
      exact hstabf y b (hstab1 y b hT)
    · intro e' he' hne hid
      rw [List.foldl_cons]
      rcases List.mem_cons.mp he' with he'' | he''
      · subst he''
        exact hstabf _ _ (hcond1 hne hid)
      · exact hcondf e' he'' hne hid

/-- One non-breaking iteration of the main loop preserves the master
invariant, recording the popped vertex in the ghost history. -/
lemma DInv_step (g : Graph) (src : Int) (hnd : nodupIds g)
    (hnn : nonnegWeights g) (pops : List (Int × Int)) (h : List Edge)
    (paths : Int → Path) (res res' : List (Int × Path))
    (hD : DInv g src pops h paths res) (hpos : 0 < h.length)
    (hw0 : ¬(heapPop h).1.weight < 0)
    (hres' : res' = if (heapPop h).1.dst = src then res
      else res ++ [((heapPop h).1.dst, paths (heapPop h).1.dst)]) :
    DInv g src (pops ++ [((heapPop h).1.dst, (heapPop h).1.weight)])
      ((outEdges g (heapPop h).1.dst).foldl
        (relaxOne src (heapPop h).1.dst (heapPop h).1.weight)
        ((heapPop h).2, paths)).1
      ((outEdges g (heapPop h).1.dst).foldl
        (relaxOne src (heapPop h).1.dst (heapPop h).1.weight)
        ((heapPop h).2, paths)).2
      res' ∧
    ((outEdges g (heapPop h).1.dst).foldl
        (relaxOne src (heapPop h).1.dst (heapPop h).1.weight)
        ((heapPop h).2, paths)).1.length = h.length - 1 := by
  -- abbreviations
  have hroot_mem : (heapPop h).1 ∈ h :=
    (heapPop_perm h hpos).mem_iff.mp (List.mem_cons_self _ _)
  have hk0 : 0 ≤ (heapPop h).1.weight := by omega
  have hroot_eq : (heapPop h).1 = h.getD 0 dummyE := heapPop_fst h hpos
  have hmin : ∀ he ∈ h, keyv (heapPop h).1.weight ≤ keyv he.weight := by
    intro he hm
    have h1 := root_min_mem h hD.heap he hm
    rw [← hroot_eq] at h1
    exact h1
  have hminw : ∀ he ∈ h, 0 ≤ he.weight →
      (heapPop h).1.weight ≤ he.weight :=
    fun he hm hw => le_of_keyv_le _ _ hk0 hw (hmin he hm)
  have htrans : ∀ he ∈ (heapPop h).2, he ∈ h :=
    fun he hm => (heapPop_perm h hpos).mem_iff.mp
      (List.mem_cons_of_mem _ hm)
  have hsplit2 : ∀ he ∈ h, he = (heapPop h).1 ∨ he ∈ (heapPop h).2 :=
    fun he hm => List.mem_cons.mp ((heapPop_perm h hpos).mem_iff.mpr hm)
  -- distinctness
  have hcn : (pops.map Prod.fst ++ h.map Edge.dst).Nodup :=
    (hD.cover.nodup_iff).mpr hnd
  rw [List.nodup_append] at hcn
  obtain ⟨hpn, hhn, hdisj⟩ := hcn
  have hvdst : (heapPop h).1.dst ∈ h.map Edge.dst :=
    List.mem_map_of_mem _ hroot_mem
  have hvnotP : (heapPop h).1.dst ∉ pops.map Prod.fst :=
    fun hc => hdisj hc hvdst
  have hmapdst : List.Perm (h.map Edge.dst)
      ((heapPop h).1.dst :: (heapPop h).2.map Edge.dst) :=
    ((heapPop_perm h hpos).map Edge.dst).symm
  have hdn' : ((heapPop h).2.map Edge.dst).Nodup :=
    ((hmapdst.nodup_iff).mp hhn).of_cons
  -- first-pop analysis
  have hfirst : pops = [] →
      (heapPop h).1.dst = src ∧ (heapPop h).1.weight = 0 := by
    intro hps
    have hse := hD.srcStart hps
    have h1 := hmin _ hse
    have h2 : (heapPop h).1.weight ≤ 0 :=
      le_of_keyv_le _ _ hk0 (le_refl 0) h1
    have hk : (heapPop h).1.weight = 0 := by omega
    exact ⟨hD.start0 hps _ hroot_mem hk, hk⟩
  have hvnsrc : pops ≠ [] → (heapPop h).1.dst ≠ src := by
    intro hps hc
    exact hvnotP (by rw [hc]; exact hD.srcIn hps)
  -- context for the relaxation fold
  have hvPmem : ((heapPop h).1.dst, (heapPop h).1.weight) ∈
      pops ++ [((heapPop h).1.dst, (heapPop h).1.weight)] :=
    List.mem_append_right _ (List.mem_singleton.mpr rfl)
  have hP0 : ∀ q ∈ pops ++ [((heapPop h).1.dst, (heapPop h).1.weight)],
      0 ≤ q.2 := by
    intro q hq
    rcases List.mem_append.mp hq with hq | hq
    · exact hD.pNonneg q hq
    · rw [List.mem_singleton.mp hq]
      exact hk0
  have hPk : ∀ q ∈ pops ++ [((heapPop h).1.dst, (heapPop h).1.weight)],
      q.2 ≤ (heapPop h).1.weight := by
    intro q hq
    rcases List.mem_append.mp hq with hq | hq
    · exact hD.pMono q hq _ hroot_mem hk0
    · rw [List.mem_singleton.mp hq]
  have hPsync : ∀ q ∈ pops ++ [((heapPop h).1.dst, (heapPop h).1.weight)],
      q.1 ≠ src → (paths q.1).edges ≠ [] ∧
        walkSum (paths q.1).edges = q.2 := by
    intro q hq hqs
    rcases List.mem_append.mp hq with hq | hq
    · exact ⟨(hD.pSync q hq hqs).1, (hD.pSync q hq hqs).2.2⟩
    · rw [List.mem_singleton.mp hq] at hqs ⊢
      exact ⟨(hD.hSyncPos _ hroot_mem hk0 hqs).1,
        (hD.hSyncPos _ hroot_mem hk0 hqs).2.2⟩
  have hvk : (heapPop h).1.dst = src → (heapPop h).1.weight = 0 := by
    intro hvs
    by_cases hps : pops = []
    · exact (hfirst hps).2
    · exact absurd hvs (hvnsrc hps)
  have hvwalk : (heapPop h).1.dst ≠ src →
      walkOK g src (heapPop h).1.dst (paths (heapPop h).1.dst).edges
        = true :=
    fun hvs => (hD.hSyncPos _ hroot_mem hk0 hvs).2.1
  have hcover : ∀ y, y ∈ g.vertices.map GVertex.vid →
      y ∈ (pops ++ [((heapPop h).1.dst, (heapPop h).1.weight)]).map
        Prod.fst ∨ y ∈ (heapPop h).2.map Edge.dst := by
    intro y hy
    have h1 := hD.cover.mem_iff.mpr hy
    rcases List.mem_append.mp h1 with h1 | h1
    · left
      rw [List.map_append]
      exact List.mem_append_left _ h1
    · rcases List.mem_cons.mp (hmapdst.mem_iff.mp h1) with h1 | h1
      · left
        rw [List.map_append, h1]
        exact List.mem_append_right _ (by simp)
      · exact Or.inr h1
  -- the initial fold state satisfies the invariant
  have hB0 : RelaxBase g src paths
      (pops ++ [((heapPop h).1.dst, (heapPop h).1.weight)])
      ((heapPop h).2.map Edge.dst) ((heapPop h).2, paths) := by
    refine ⟨?_, List.Perm.refl _, hD.srcPath, fun q _ => rfl, ?_, ?_, ?_⟩
    · show HeapN (heapPop h).2 (heapPop h).2.length
      rw [heapPop_length]
      exact heapPop_heap h hD.heap
    · intro he hm hw hd
      exact hD.hSyncPos he (htrans he hm) hw hd
    · intro he hm hw
      exact hD.hSyncNeg he (htrans he hm) hw
    · intro he hm hw q hq
      rcases List.mem_append.mp hq with hq | hq
      · exact hD.pMono q hq he (htrans he hm) hw
      · rw [List.mem_singleton.mp hq]
        exact hminw he (htrans he hm) hw
  obtain ⟨hBf, hstab, hcond⟩ := fold_relax_master g src paths
    (pops ++ [((heapPop h).1.dst, (heapPop h).1.weight)])
    (heapPop h).1.dst (heapPop h).1.weight ((heapPop h).2.map Edge.dst)
    hnn hdn' hvPmem hk0 hP0 hPk hPsync hvk hvwalk hcover
    (outEdges g (heapPop h).1.dst) ((heapPop h).2, paths)
    (fun e he => he) hB0
  -- transfer of bounds from the pre-pop state
  have hTtrans : ∀ y b, TBound pops h y b →
      TBound (pops ++ [((heapPop h).1.dst, (heapPop h).1.weight)])
        (heapPop h).2 y b := by
    intro y b hT
    rcases hT with ⟨q, hq, hq1, hqb⟩ | ⟨he, hm, hd, hw, hb⟩
    · exact Or.inl ⟨q, List.mem_append_left _ hq, hq1, hqb⟩
    · rcases hsplit2 he hm with hcs | hcs
      · refine Or.inl ⟨((heapPop h).1.dst, (heapPop h).1.weight),
          hvPmem, ?_, ?_⟩
        · show (heapPop h).1.dst = y
          rw [← hcs]
          exact hd
        · show (heapPop h).1.weight ≤ b
          rw [← hcs]
          exact hb
      · exact Or.inr ⟨he, hcs, hd, hw, hb⟩
  have hlen : ((outEdges g (heapPop h).1.dst).foldl
      (relaxOne src (heapPop h).1.dst (heapPop h).1.weight)
      ((heapPop h).2, paths)).1.length = h.length - 1 := by
    rw [foldl_relax_length]
    show (heapPop h).2.length = h.length - 1
    exact heapPop_length h
  have hPfst : ((pops ++ [((heapPop h).1.dst, (heapPop h).1.weight)]).map
      Prod.fst) = pops.map Prod.fst ++ [(heapPop h).1.dst] := by
    rw [List.map_append]
    rfl
  refine ⟨⟨hBf.heap, ?_, hP0, ?_, ?_, ?_, ?_, ?_, ?_, ?_, hBf.syncPos,
    hBf.syncNeg, hBf.src_path, ?_, ?_⟩, hlen⟩
  · -- cover
    rw [hPfst, List.append_assoc]
    refine List.Perm.trans ?_ hD.cover
    refine List.Perm.append_left (pops.map Prod.fst) ?_
    show List.Perm ((heapPop h).1.dst ::
      ((outEdges g (heapPop h).1.dst).foldl
        (relaxOne src (heapPop h).1.dst (heapPop h).1.weight)
        ((heapPop h).2, paths)).1.map Edge.dst) (h.map Edge.dst)
    exact ((hBf.dst_perm).cons _).trans hmapdst.symm
  · -- pMono
    intro q hq he hm hw
    exact hBf.wLB he hm hw q hq
  · -- srcStart
    intro hc
    exact absurd hc (by simp)
  · -- start0
    intro hc
    exact absurd hc (by simp)
  · -- srcIn
    intro _
    by_cases hps : pops = []
    · rw [hPfst, (hfirst hps).1]
      exact List.mem_append_right _ (by simp)
    · rw [hPfst]
      exact List.mem_append_left _ (hD.srcIn hps)
  · -- srcKey
    intro q hq hqs
    rcases List.mem_append.mp hq with hq | hq
    · exact hD.srcKey q hq hqs
    · rw [List.mem_singleton.mp hq] at hqs ⊢
      exact hvk hqs
  · -- pSync
    intro q hq hqs
    rw [hBf.frozen q hq]
    rcases List.mem_append.mp hq with hq2 | hq2
    · exact hD.pSync q hq2 hqs
    · rw [List.mem_singleton.mp hq2] at hqs ⊢
      exact hD.hSyncPos _ hroot_mem hk0 hqs
  · -- pOpt
    intro q hq es hwalk
    rcases List.mem_append.mp hq with hq2 | hq2
    · exact hD.pOpt q hq2 es hwalk
    · rw [List.mem_singleton.mp hq2] at hwalk ⊢
      show (heapPop h).1.weight ≤ walkSum es
      by_cases hps : pops = []
      · rw [(hfirst hps).2]
        have hv0 := (hfirst hps).1
        rw [hv0] at hwalk
        exact walkSum_nonneg g hnn es src src hwalk
      · obtain ⟨qs, hqs, hqs1⟩ := List.mem_map.mp (hD.srcIn hps)
        have hqs0 := hD.srcKey qs hqs hqs1
        have hsrcP : (src, (0 : Int)) ∈ pops := by
          rw [← hqs1, ← hqs0]
          exact hqs
        have hvid : (heapPop h).1.dst ∈ g.vertices.map GVertex.vid :=
          hD.cover.mem_iff.mp (List.mem_append_right _ hvdst)
        obtain ⟨he, hm, hw, hb⟩ := crossing_bound g src hnn pops h
          hD.pNonneg hD.srcKey (hD.srcIn hps) hD.relaxed es src 0
          (heapPop h).1.dst hwalk hsrcP hvid hvnotP
        have := hminw he hm hw
        omega
  · -- relaxed
    intro q hq x hx hvid e hex hne hid
    rcases List.mem_append.mp hq with hq2 | hq2
    · exact hstab _ _ (hTtrans _ _ (hD.relaxed q hq2 x hx hvid e hex
        hne hid))
    · have hqe := List.mem_singleton.mp hq2
      have hxv : outEdges g (heapPop h).1.dst = x.outgoing := by
        have h1 := outEdges_eq g hnd x hx
        rw [hvid, hqe] at h1
        exact h1
      have hcq := hcond e (by rw [hxv]; exact hex) hne hid
      rw [hqe]
      exact hcq
  · -- resEq
    have hfilt : (pops ++
        [((heapPop h).1.dst, (heapPop h).1.weight)]).filter
          (fun q => decide (q.1 ≠ src)) =
        pops.filter (fun q => decide (q.1 ≠ src)) ++
          (if (heapPop h).1.dst = src then []
            else [((heapPop h).1.dst, (heapPop h).1.weight)]) := by
      rw [List.filter_append]
      by_cases hvs : (heapPop h).1.dst = src <;>
        simp [List.filter_singleton, hvs]
    rw [hfilt, List.map_append]
    have hmapold : (pops.filter (fun q => decide (q.1 ≠ src))).map
        (fun q => (q.1, ((outEdges g (heapPop h).1.dst).foldl
          (relaxOne src (heapPop h).1.dst (heapPop h).1.weight)
          ((heapPop h).2, paths)).2 q.1)) =
        (pops.filter (fun q => decide (q.1 ≠ src))).map
          (fun q => (q.1, paths q.1)) := by
      apply List.map_congr_left
      intro q hq
      rw [hBf.frozen q (List.mem_append_left _ (List.mem_of_mem_filter hq))]
    rw [hmapold, ← hD.resEq, hres']
    by_cases hvs : (heapPop h).1.dst = src
    · rw [if_pos hvs, if_pos hvs]
      simp
    · rw [if_neg hvs, if_neg hvs]
      rw [List.map_cons, List.map_nil]
      rw [hBf.frozen _ hvPmem]

/-- Running the main loop from any state satisfying the master invariant
ends in a state satisfying it whose heap holds only sentinel entries. -/
lemma dijkstraLoop_master (g : Graph) (src : Int) (hnd : nodupIds g)
    (hnn : nonnegWeights g) :
    ∀ (fuel : Nat) (h : List Edge) (paths : Int → Path)
      (res : List (Int × Path)) (pops : List (Int × Int)),
      fuel = h.length → DInv g src pops h paths res →
      ∃ pops' h' paths',
        DInv g src pops' h' paths'
          (dijkstraLoop g src (fun s v p => (s ++ [(v, p)], true))
            fuel h paths res) ∧
        (∀ he ∈ h', he.weight < 0) := by
  intro fuel
  induction fuel with
  | zero =>
    intro h paths res pops hfu hD
    refine ⟨pops, h, paths, hD, ?_⟩
    intro he hm
    have hnil : h = [] := List.length_eq_zero.mp hfu.symm
    rw [hnil] at hm
    exact absurd hm (List.not_mem_nil he)
  | succ fuel ih =>
    intro h paths res pops hfu hD
    have hpos : 0 < h.length := by omega
    by_cases hw0 : (heapPop h).1.weight < 0
    · have hres : dijkstraLoop g src
          (fun s v p => (s ++ [(v, p)], true)) (fuel + 1) h paths res
            = res := by
        simp [dijkstraLoop, hw0]
      rw [hres]
      refine ⟨pops, h, paths, hD, ?_⟩
      intro he hm
      have h1 := root_min_mem h hD.heap he hm
      rw [← heapPop_fst h hpos, keyv_of_neg _ hw0] at h1
      exact neg_of_keyv_top_le _ h1
    · by_cases hd : (heapPop h).1.dst = src
      · obtain ⟨hD', hlen⟩ := DInv_step g src hnd hnn pops h paths res
          res hD hpos hw0 (by rw [if_pos hd])
        rw [hd] at hD' hlen
        simp only [dijkstraLoop, hw0, if_false, hd, ne_eq,
          not_true_eq_false, if_true, ite_false, ite_true,
          Bool.true_eq_false]
        exact ih _ _ _ _ (by omega) hD'
      · obtain ⟨hD', hlen⟩ := DInv_step g src hnd hnn pops h paths res
          (res ++ [((heapPop h).1.dst, paths (heapPop h).1.dst)]) hD hpos
          hw0 (by rw [if_neg hd])
        simp only [dijkstraLoop, hw0, if_false, ne_eq, hd,
          not_false_eq_true, if_true, ite_true, ite_false,
          Bool.true_eq_false]
        exact ih _ _ _ _ (by omega) hD'

/-- The freshly seeded heap and empty paths map satisfy the master
invariant when the source is a registered vertex. -/
lemma DInv_init (g : Graph) (src : Int) (hnd : nodupIds g)
    (hsrc : src ∈ g.vertices.map GVertex.vid) :
    DInv g src []
      (heapInit (g.vertices.map
        (fun v => Edge.mk v.vid (if v.vid = src then 0 else -1))))
      (fun _ => ⟨[]⟩) [] := by
  have hper := heapInit_perm (g.vertices.map
    (fun v => Edge.mk v.vid (if v.vid = src then 0 else -1)))
  have hseeddst : (g.vertices.map
      (fun v => Edge.mk v.vid (if v.vid = src then 0 else -1))).map
        Edge.dst = g.vertices.map GVertex.vid := by
    rw [List.map_map]
    rfl
  refine ⟨?_, ?_, ?_, ?_, ?_, ?_, ?_, ?_, ?_, ?_, ?_, ?_, rfl, ?_, rfl⟩
  · show HeapN _ _
    rw [heapInit_length]
    exact heapInit_heap _
  · simp only [List.map_nil, List.nil_append]
    have h2 := hper.map Edge.dst
    rw [hseeddst] at h2
    exact h2
  · intro q hq
    exact absurd hq (List.not_mem_nil q)
  · intro q hq
    exact absurd hq (List.not_mem_nil q)
  · intro _
    obtain ⟨x, hx, hxv⟩ := List.mem_map.mp hsrc
    refine hper.mem_iff.mpr ?_
    have heq : Edge.mk x.vid (if x.vid = src then 0 else -1) =
        (⟨src, 0⟩ : Edge) := by
      rw [if_pos hxv, hxv]
    rw [← heq]
    exact List.mem_map_of_mem _ hx
  · intro _ he hm hw0
    obtain ⟨y, hy, heq⟩ := List.mem_map.mp (hper.mem_iff.mp hm)
    by_cases hys : y.vid = src
    · rw [← heq]
      show y.vid = src
      exact hys
    · rw [← heq] at hw0
      rw [show (Edge.mk y.vid (if y.vid = src then 0 else -1)).weight =
        (if y.vid = src then 0 else -1) from rfl, if_neg hys] at hw0
      omega
  · intro hc
    exact absurd rfl hc
  · intro q hq
    exact absurd hq (List.not_mem_nil q)
  · intro q hq
    exact absurd hq (List.not_mem_nil q)
  · intro q hq
    exact absurd hq (List.not_mem_nil q)
  · intro he hm hw hd
    obtain ⟨y, hy, heq⟩ := List.mem_map.mp (hper.mem_iff.mp hm)
    by_cases hys : y.vid = src
    · exact absurd (by rw [← heq]; show y.vid = src; exact hys) hd
    · rw [← heq, show (Edge.mk y.vid (if y.vid = src then 0 else
        -1)).weight = (if y.vid = src then 0 else -1) from rfl,
          if_neg hys] at hw
      omega
  · intro he _ _
    rfl
  · intro q hq
    exact absurd hq (List.not_mem_nil q)

lemma lookup_map_fst (f : Int → Path) :
    ∀ (l : List (Int × Int)) (v : Int), v ∈ l.map Prod.fst →
      (l.map (fun q => (q.1, f q.1))).lookup v = some (f v) := by
  intro l
  induction l with
  | nil =>
    intro v hv
    simp at hv
  | cons q l ih =>
    intro v hv
    rw [List.map_cons]
    by_cases hq : q.1 = v
    · rw [hq]
      simp [List.lookup]
    · have hv2 : v ∈ l.map Prod.fst := by
        rw [List.map_cons] at hv
        rcases List.mem_cons.mp hv with h1 | h1
        · exact absurd h1.symm hq
        · exact h1
      have hb : (v == q.1) = false :=
        beq_eq_false_iff_ne.mpr (fun hc => hq hc.symm)
      have hstep : ((q.1, f q.1) :: l.map (fun r => (r.1, f r.1))).lookup v
          = (l.map (fun r => (r.1, f r.1))).lookup v := by
        simp [List.lookup, hb]
      rw [hstep]
      exact ih v hv2

/-- Optimality of the value-semantics idealization of `dijkstra` (paths
copied by value, as `relaxOne` models them): with non-negative edge weights,
every registered vertex reachable from the source (other than the source
itself) is reported by `ShortestPaths` with a path that is a walk from the
source to it whose weight equals the reported distance, and no walk from
the source to it weighs less. The real program deviates from this model
through the slice aliasing of `Path.addEdge` (see
`dijkstra_pathAliasing_bug`). -/
theorem dijkstra_optimality (g : Graph) (src v : Int)
    (hnd : nodupIds g) (hnn : nonnegWeights g)
    (hv : v ∈ g.vertices.map GVertex.vid) (hvs : v ≠ src)
    (hreach : Reach g src v) :
    ∃ p, (g.ShortestPaths src).lookup v = some p ∧
      walkOK g src v p.edges = true ∧
      p.Distance = walkSum p.edges ∧
      ∀ es, walkOK g src v es = true → p.Distance ≤ walkSum es := by
  obtain ⟨es0, hes0⟩ := hreach
  have hsrc : src ∈ g.vertices.map GVertex.vid := by
    cases es0 with
    | nil => exact absurd (walkOK_nil_eq g src v hes0).symm hvs
    | cons e es =>
      obtain ⟨⟨x, hx, hxv, _⟩, _⟩ := walkOK_cons_head g src v e es hes0
      exact List.mem_map.mpr ⟨x, hx, hxv⟩
  obtain ⟨pops', h', paths', hD0, hsent⟩ := dijkstraLoop_master g src hnd
    hnn (g.vertices.map
      (fun x => Edge.mk x.vid (if x.vid = src then 0 else -1))).length
    (heapInit (g.vertices.map
      (fun x => Edge.mk x.vid (if x.vid = src then 0 else -1))))
    (fun _ => ⟨[]⟩) [] [] (heapInit_length _).symm (DInv_init g src hnd hsrc)
  have hD : DInv g src pops' h' paths' (g.ShortestPaths src) := hD0
  have hvpop : v ∈ pops'.map Prod.fst := by
    by_contra hc
    have hne : pops' ≠ [] := by
      intro h0
      have h2 : ((⟨src, 0⟩ : Edge)).weight < 0 := hsent _ (hD.srcStart h0)
      have h3 : (0 : Int) < 0 := h2
      omega
    obtain ⟨qs, hqs, hqs1⟩ := List.mem_map.mp (hD.srcIn hne)
    have hqs0 := hD.srcKey qs hqs hqs1
    have hsrcP : (src, (0 : Int)) ∈ pops' := by
      rw [← hqs1, ← hqs0]
      exact hqs
    obtain ⟨he, hm, hw, _⟩ := crossing_bound g src hnn pops' h'
      hD.pNonneg hD.srcKey (hD.srcIn hne) hD.relaxed es0 src 0 v hes0
      hsrcP hv hc
    have := hsent he hm
    omega
  obtain ⟨q, hq, hq1⟩ := List.mem_map.mp hvpop
  have hsy : (paths' q.1).edges ≠ [] ∧
      walkOK g src q.1 (paths' q.1).edges = true ∧
      walkSum (paths' q.1).edges = q.2 :=
    hD.pSync q hq (by rw [hq1]; exact hvs)
  rw [hq1] at hsy
  refine ⟨paths' v, ?_, hsy.2.1, Distance_of_ne_nil _ hsy.1, ?_⟩
  · rw [hD.resEq]
    apply lookup_map_fst
    refine List.mem_map.mpr ⟨q, ?_, hq1⟩
    refine List.mem_filter.mpr ⟨hq, ?_⟩
    rw [hq1]
    simp [hvs]
  · intro es hwalk
    have hopt := hD.pOpt q hq es (by rw [hq1]; exact hwalk)
    rw [Distance_of_ne_nil _ hsy.1, hsy.2.2]
    exact hopt

/-- Concrete instantiation of `dijkstra_optimality`: on the six-vertex
example graph with source 1, vertex 3 is reachable and the theorem
produces its optimal reported path. -/
theorem dijkstra_optimality_witness :
    nodupIds exampleGraphC2 ∧ nonnegWeights exampleGraphC2 ∧
    (∃ p, (exampleGraphC2.ShortestPaths 1).lookup 3 = some p ∧
      walkOK exampleGraphC2 1 3 p.edges = true ∧
      p.Distance = walkSum p.edges ∧
      ∀ es, walkOK exampleGraphC2 1 3 es = true →
        p.Distance ≤ walkSum es) :=
  ⟨by decide, by decide,
    dijkstra_optimality exampleGraphC2 1 3 (by decide) (by decide)
      (by decide) (by decide) ⟨[⟨3, 1⟩], by decide⟩⟩

/-- C1: the claimed optimality is false of the program. Under the real
slice semantics of `Path.addEdge` (`ShortestPathsS`), on the non-negative
chain `1→2→3→4` (weights 1,1,1) with `4→5` (weight 1) and `4→6` (weight
2), the path reported for vertex 5 is `[→2,→3,→4,→6]` — distance 5 and
not even a walk to 5 — because relaxing `4→6` rewrote in place the
backing array shared with vertex 5's stored path; the walk `1→2→3→4→5`
of weight 4 shows the minimum walk weight is below the reported distance.
The value-semantics idealization (`ShortestPaths`) reports the correct
minimal path at the same input, isolating the defect to the slice
aliasing. -/
theorem dijkstra_pathAliasing_bug :
    nonnegWeights exampleGraphC1 ∧ nodupIds exampleGraphC1 ∧
    (exampleGraphC1.ShortestPathsS 1).lookup 5 =
      some [⟨2, 1⟩, ⟨3, 1⟩, ⟨4, 1⟩, ⟨6, 2⟩] ∧
    listDistance [⟨2, 1⟩, ⟨3, 1⟩, ⟨4, 1⟩, ⟨6, 2⟩] = 5 ∧
    walkOK exampleGraphC1 1 5 [⟨2, 1⟩, ⟨3, 1⟩, ⟨4, 1⟩, ⟨6, 2⟩] = false ∧
    walkOK exampleGraphC1 1 5 [⟨2, 1⟩, ⟨3, 1⟩, ⟨4, 1⟩, ⟨5, 1⟩] = true ∧
    walkSum [⟨2, 1⟩, ⟨3, 1⟩, ⟨4, 1⟩, ⟨5, 1⟩] = 4 ∧
    (exampleGraphC1.ShortestPaths 1).lookup 5 =
      some ⟨[⟨2, 1⟩, ⟨3, 1⟩, ⟨4, 1⟩, ⟨5, 1⟩]⟩ := by
  decide

end GraphLib
